import Mathlib

/-!
Verification of the mailhog-node MIME decoding core against its
natural-language specification.

JavaScript strings are modelled as lists of UTF-16 code units
(`List Nat`), byte buffers as lists of bytes (`List Nat`, each < 256).
All functions are translated from the repository's source files:
`src/libqp/index.js` (quoted-printable codec), the transfer decoders in
`src/index.js` and the historical `index.js` versions, `src/mailhog.js` /
`src/src/getContentPart.js` (content-part selection), and the
attachment/header logic shared by the two newest `index.js` versions.
-/

/-- UTF-16 code units of a Lean string (exact for BMP-only strings,
which covers every literal used below). -/
def units (s : String) : List Nat := s.data.map Char.toNat

namespace Libqp

/-- `/[\da-fA-F]/` — hexadecimal digit test used by `decode`. -/
def isHexDigit (c : Nat) : Bool :=
  (48 ≤ c && c ≤ 57) || (65 ≤ c && c ≤ 70) || (97 ≤ c && c ≤ 102)

/-- Numeric value of a hexadecimal digit character. -/
def hexVal (c : Nat) : Nat :=
  if 48 ≤ c && c ≤ 57 then c - 48
  else if 65 ≤ c && c ≤ 70 then c - 55
  else if 97 ≤ c && c ≤ 102 then c - 87
  else 0

/-- Uppercase hexadecimal digit character for a value < 16
(`ord.toString(16).toUpperCase()` per digit). -/
def hexDig (n : Nat) : Nat :=
  if n < 10 then 48 + n else 55 + n

/-- `'=' + (ord < 0x10 ? '0' : '') + ord.toString(16).toUpperCase()` for a
byte `b < 256` (Buffer elements are bytes, so `toString(16)` yields at most
two digits and the pad makes exactly two). -/
def escByte (b : Nat) : List Nat :=
  if b < 16 then [61, 48, hexDig b] else [61, hexDig (b / 16), hexDig (b % 16)]

/-- `checkRanges(ord, ranges)` with the ranges of `encode`:
TAB, LF, CR, [0x20,0x3c], [0x3e,0x7e]. -/
def qpAllowed (b : Nat) : Bool :=
  b == 9 || b == 10 || b == 13 || (32 ≤ b && b ≤ 60) || (62 ≤ b && b ≤ 126)

/-- `encode(buffer)` from src/libqp/index.js: keep a byte literally when it
is in the allowed ranges and is not a space/tab that ends the input or
immediately precedes LF or CR; otherwise emit `=XX`. -/
def encode : List Nat → List Nat
  | [] => []
  | b :: rest =>
    let wsEol : Bool :=
      (b == 32 || b == 9) &&
        (match rest with
         | [] => true
         | c :: _ => c == 10 || c == 13)
    (if qpAllowed b && !wsEol then [b] else escByte b) ++ encode rest

/-- ECMAScript LineTerminator set (LF, CR, LS, PS), the positions at which
a multiline `$` matches. -/
def isLineTerm (c : Nat) : Bool :=
  c == 10 || c == 13 || c == 8232 || c == 8233

/-- Worker for the `/[\t ]+$/gm` replacement of `decode`: a pending run of
tabs/spaces is dropped when it abuts a line terminator or the end of the
input, and flushed otherwise. -/
def stripGo (pending : List Nat) : List Nat → List Nat
  | [] => []
  | c :: rest =>
    if c == 9 || c == 32 then stripGo (pending ++ [c]) rest
    else if isLineTerm c then c :: stripGo [] rest
    else pending ++ c :: stripGo [] rest

/-- `.replace(/[\t ]+$/gm, '')`: remove trailing horizontal whitespace
from every line. -/
def stripTrailingWs (s : List Nat) : List Nat := stripGo [] s

/-- `.replace(/\=(?:\r?\n|$)/g, '')`: remove soft line breaks — an `=`
followed by CRLF, by a bare LF, or standing at the end of the input. -/
def removeSoftBreaks : List Nat → List Nat
  | [] => []
  | 61 :: 13 :: 10 :: r => removeSoftBreaks r
  | 61 :: 10 :: r => removeSoftBreaks r
  | [61] => []
  | 61 :: c :: r => 61 :: removeSoftBreaks (c :: r)
  | c :: r => c :: removeSoftBreaks r

/-- Number of non-overlapping `/\=[\da-fA-F]{2}/g` matches
(`encodedBytesCount` in `decode`). -/
def countEnc : List Nat → Nat
  | 61 :: h1 :: h2 :: r =>
    if isHexDigit h1 && isHexDigit h2 then 1 + countEnc r
    else countEnc (h1 :: h2 :: r)
  | _ :: r => countEnc r
  | [] => 0

/-- The left-to-right scan of `decode`: `=` followed by two hex digits
yields that byte and consumes three characters; any other character is
written as its code unit masked to a byte (Buffer index assignment). -/
def scanQP : List Nat → List Nat
  | 61 :: h1 :: h2 :: r =>
    if isHexDigit h1 && isHexDigit h2 then
      (16 * hexVal h1 + hexVal h2) :: scanQP r
    else 61 :: scanQP (h1 :: h2 :: r)
  | c :: r => (c % 256) :: scanQP r
  | [] => []

/-- `decode(input)` from src/libqp/index.js.  The buffer is allocated with
length `str.length - 2 * encodedBytesCount` and zero-filled; writes past
the end are ignored and unwritten slots stay 0, which the final
`take`/pad reproduces. -/
def decode (input : List Nat) : List Nat :=
  let s := removeSoftBreaks (stripTrailingWs input)
  let n := s.length - 2 * countEnc s
  let bytes := scanQP s
  bytes.take n ++ List.replicate (n - bytes.length) 0

/-- Index of the first `\r\n` pair in a string (`line.match(/\r\n/)`). -/
def findCRLF : List Nat → Option Nat
  | 13 :: 10 :: _ => some 0
  | _ :: r => (findCRLF r).map (· + 1)
  | [] => none

/-- JS `str.substr(-n)`: the last `n` characters, except that `substr(-0)`
is `substr(0)`, the whole string. -/
def substrNeg (s : List Nat) (n : Nat) : List Nat :=
  if n == 0 then s else s.drop (s.length - n)

/-- Index of the last element satisfying `p`. -/
def lastIdxOf (p : Nat → Bool) (s : List Nat) : Option Nat :=
  (s.reverse.findIdx? p).map (fun j => s.length - 1 - j)

/-- The break-opportunity class `[ \t\.,!\?]` of `wrap`. -/
def isPunct (c : Nat) : Bool :=
  c == 32 || c == 9 || c == 46 || c == 44 || c == 33 || c == 63

/-- The character at index `i`, when present. -/
def charAt (s : List Nat) (i : Nat) : Option Nat := (s.drop i).head?

/-- If the line ends with a complete escape `=XX` (`/\=[\da-f]{2}$/i`),
the byte value of that escape. -/
def endsWithEscape (line : List Nat) : Option Nat :=
  match charAt line (line.length - 3), charAt line (line.length - 2),
      charAt line (line.length - 1) with
  | some e, some h1, some h2 =>
    if 3 ≤ line.length && e == 61 && isHexDigit h1 && isHexDigit h2 then
      some (16 * hexVal h1 + hexVal h2)
    else none
  | _, _, _ => none

/-- Length of the `/\=[\da-f]{0,1}$/i` match, when the line ends with a
bare `=` (length 1) or `=` plus one hex digit (length 2). -/
def eq01Match (line : List Nat) : Option Nat :=
  if line.getLast? == some 61 then some 1
  else
    match charAt line (line.length - 2), line.getLast? with
    | some e, some h =>
      if 2 ≤ line.length && e == 61 && isHexDigit h then some 2 else none
    | _, _ => none

/-- `/\=[\da-f]{0,2}$/i`: the line ends with `=`, `=h`, or `=hh`. -/
def endsEq012 (line : List Nat) : Bool :=
  (eq01Match line).isSome || (endsWithEscape line).isSome

/-- The line is a sequence of complete `=XX` escapes. -/
def allEscapes : List Nat → Bool
  | [] => true
  | 61 :: h1 :: h2 :: r => isHexDigit h1 && isHexDigit h2 && allEscapes r
  | _ => false

/-- `/^(?:=[\da-f]{2}){1,4}$/i`: one to four complete escapes and nothing
else. -/
def isFullEscapes (line : List Nat) : Bool :=
  allEscapes line && line.length != 0 && line.length ≤ 12

/-- The `while` loop of `wrap` that keeps UTF-8 escape runs together:
while the line is longer than 3 characters, shorter than the remaining
input, and not entirely made of 1–4 escapes, inspect a trailing complete
escape; stop before stripping on an ASCII byte, strip 3 characters, and
stop after stripping on a lead byte (≥ 0xC0).  `fuel` only bounds the
iteration count (each pass shortens the line by 3). -/
def backoffGo (len pos : Nat) : Nat → List Nat → List Nat
  | 0, line => line
  | fuel + 1, line =>
    if 3 < line.length && line.length < len - pos && !isFullEscapes line then
      match endsWithEscape line with
      | some code =>
        if code < 128 then line
        else
          let line2 := line.take (line.length - 3)
          if 192 ≤ code then line2 else backoffGo len pos fuel line2
      | none => line
    else line

/-- The UTF-8 backoff with enough fuel to run to completion. -/
def utf8Backoff (len pos : Nat) (line : List Nat) : List Nat :=
  backoffGo len pos line.length line

/-- The soft line break appended by `wrap` (`'=\r\n'`). -/
def marker : List Nat := [61, 13, 10]

/-- The escape-sequence handling of the loop body: when the line ends in
`=`, `=h` or `=hh`, strip an incomplete trailing escape (pushing it to
the next line) and run the UTF-8 backoff. -/
def stepEsc (len pos : Nat) (line : List Nat) : List Nat :=
  if endsEq012 line then
    utf8Backoff len pos
      (match eq01Match line with
       | some m => line.take (line.length - m)
       | none => line)
  else line

/-- The `else` chain of the loop body: truncate to the last space or
punctuation character in the window (only when the line is longer than
`maxLength - lineMargin`), otherwise handle trailing escapes. -/
def stepLine1 (maxLength lineMargin len pos : Nat) (line : List Nat) :
    List Nat :=
  if maxLength - lineMargin < line.length then
    match lastIdxOf isPunct (substrNeg line lineMargin) with
    | some j =>
      line.take (line.length - ((substrNeg line lineMargin).length - j) + 1)
    | none => stepEsc len pos line
  else stepEsc len pos line

/-- The final trim before a soft break is appended: a line still at the
full `maxLength` loses one trailing escape (3 characters) or one
character. -/
def stepTrim (maxLength : Nat) (line1 : List Nat) : List Nat :=
  if line1.length == maxLength && (endsWithEscape line1).isSome then
    line1.take (line1.length - 3)
  else if line1.length == maxLength then line1.take (line1.length - 1)
  else line1

/-- `line.substr(-lineMargin).match(/\n.*?$/)`: without the `m` flag,
`$` only matches at the very end of the window, so the lazy `.*?` is
forced to consume the whole tail, and JS `.` excludes the line
terminators LF, CR, U+2028 and U+2029.  The regex therefore matches
exactly when the window's last LF is followed by non-terminators only;
the match then runs from that LF to the end, and its index is
returned. -/
def lfTailMatch (window : List Nat) : Option Nat :=
  match lastIdxOf (fun c => c == 10) window with
  | some j =>
    if (window.drop (j + 1)).all
        (fun c => !(c == 10 || c == 13 || c == 8232 || c == 8233)) then
      some j
    else none
  | none => none

/-- One iteration of the `while (pos < len)` loop of `wrap`: the chunk of
input characters kept on the current output line, and whether a soft
break marker follows it.  The caller advances `pos` by the chunk
length. -/
def wrapStep (maxLength lineMargin len pos : Nat) (input : List Nat) :
    List Nat × Bool :=
  let line := (input.drop pos).take maxLength
  match findCRLF line with
  | some idx => (line.take (idx + 2), false)
  | none =>
    if line.getLast? == some 10 then (line, false)
    else
      let window := substrNeg line lineMargin
      match lfTailMatch window with
      | some j => (line.take (line.length - (window.length - j) + 1), false)
      | none =>
        let line1 := stepLine1 maxLength lineMargin len pos line
        if decide (pos + line1.length < len) && !(line1.getLast? == some 10) then
          (stepTrim maxLength line1, true)
        else (line1, false)

/-- The `wrap` loop as a list of (chunk, soft-break?) pairs, with an
explicit fuel bound on the number of iterations (the JS loop does not
terminate on all inputs; `none` models divergence). -/
def wrapChunksGo (maxLength lineMargin len : Nat) (input : List Nat) :
    Nat → Nat → Option (List (List Nat × Bool))
  | 0, pos => if len ≤ pos then some [] else none
  | fuel + 1, pos =>
    if len ≤ pos then some []
    else
      let c := wrapStep maxLength lineMargin len pos input
      (wrapChunksGo maxLength lineMargin len input fuel (pos + c.1.length)).map
        (c :: ·)

/-- `wrap(str, lineLength)` decomposed into chunks.  A short input is
returned unchanged as a single chunk. -/
def wrapChunks (input : List Nat) (lineLength : Nat) :
    Option (List (List Nat × Bool)) :=
  let maxLength := if lineLength == 0 then 76 else lineLength
  if input.length ≤ maxLength then some [(input, false)]
  else
    wrapChunksGo maxLength (maxLength / 3) input.length input
      (input.length + 1) 0

/-- Concatenation of the chunks with their soft-break markers. -/
def renderChunks (cs : List (List Nat × Bool)) : List Nat :=
  (cs.map (fun p => p.1 ++ if p.2 then marker else [])).flatten

/-- `wrap(str, lineLength)` from src/libqp/index.js. -/
def wrap (input : List Nat) (lineLength : Nat) : Option (List Nat) :=
  (wrapChunks input lineLength).map renderChunks

/-! ### Structural invariants of encoder output -/

/-- Well-formed quoted-printable text: every `=` is followed by two hex
digits, and no space or tab stands at the end of the text or directly
before a line terminator.  `encode` only produces such text. -/
def goodQP : List Nat → Bool
  | [] => true
  | c :: r =>
    (if c == 61 then
       match r with
       | h1 :: h2 :: _ => isHexDigit h1 && isHexDigit h2
       | _ => false
     else if c == 9 || c == 32 then
       match r with
       | [] => false
       | d :: _ => !isLineTerm d
     else true) &&
    goodQP r

/-- No space/tab directly before a line terminator or the end: exactly
the texts left unchanged by the `/[\t ]+$/gm` strip. -/
def gsOK : List Nat → Bool
  | [] => true
  | c :: r =>
    (if c == 9 || c == 32 then
       match r with
       | [] => false
       | d :: _ => !isLineTerm d
     else true) &&
    gsOK r

/-- If the text starts with a complete escape `=XX`, its byte value. -/
def startsEscape (s : List Nat) : Option Nat :=
  match charAt s 0, charAt s 1, charAt s 2 with
  | some e, some h1, some h2 =>
    if e == 61 && isHexDigit h1 && isHexDigit h2 then
      some (16 * hexVal h1 + hexVal h2)
    else none
  | _, _, _ => none

/-- A soft break between `a` and what follows separates an escape with a
high byte value (≥ 0x80) from a UTF-8 continuation escape: the splits
the specification's multi-byte safety rule is about. -/
def splitPair (a b : List Nat) : Bool :=
  match endsWithEscape a, startsEscape b with
  | some v1, some v2 => 128 ≤ v1 && 128 ≤ v2 && v2 < 192
  | _, _ => false

/-- `=XX` escape of a lead byte directly followed by a soft break and a
continuation escape, at position `i`. -/
def leadSplitAt (s : List Nat) (i : Nat) : Bool :=
  match charAt s i, charAt s (i + 1), charAt s (i + 2), charAt s (i + 3),
      charAt s (i + 4), charAt s (i + 5), charAt s (i + 6), charAt s (i + 7),
      charAt s (i + 8) with
  | some e1, some h1, some h2, some m1, some m2, some m3, some e2, some h3,
      some h4 =>
    e1 == 61 && isHexDigit h1 && isHexDigit h2 && m1 == 61 && m2 == 13 &&
    m3 == 10 && e2 == 61 && isHexDigit h3 && isHexDigit h4 &&
    192 ≤ 16 * hexVal h1 + hexVal h2 && 128 ≤ 16 * hexVal h3 + hexVal h4 &&
    (16 * hexVal h3 + hexVal h4 < 192 : Bool)
  | _, _, _, _, _, _, _, _, _ => false

/-- The wrapped text splits a UTF-8 escape run somewhere: a lead-byte
escape is separated from its continuation by a soft break. -/
def hasLeadSplit (s : List Nat) : Bool :=
  (List.range s.length).any (leadSplitAt s)

/-- Modelled from claim C5's words: remove each soft line break, defined
as an `=` immediately followed by CRLF or by the end of the input. -/
def removeSoftBreaksClaimed : List Nat → List Nat
  | [] => []
  | 61 :: 13 :: 10 :: r => removeSoftBreaksClaimed r
  | [61] => []
  | c :: r => c :: removeSoftBreaksClaimed r

/-- Modelled from claim C5's words: the full claimed decode pipeline
(strip trailing whitespace per line, remove the claimed soft breaks,
scan). -/
def decodeClaimed (input : List Nat) : List Nat :=
  scanQP (removeSoftBreaksClaimed (stripTrailingWs input))

/-- Modelled from amended claim C5's words: a soft break is an `=`
immediately followed by CRLF, by a bare LF, or standing at the end of
the input. -/
def removeSoftBreaksAmended : List Nat → List Nat
  | [] => []
  | 61 :: 13 :: 10 :: r => removeSoftBreaksAmended r
  | 61 :: 10 :: r => removeSoftBreaksAmended r
  | [61] => []
  | c :: r => c :: removeSoftBreaksAmended r

/-- Modelled from amended claim C5's words: the amended decode pipeline. -/
def decodeAmended (input : List Nat) : List Nat :=
  scanQP (removeSoftBreaksAmended (stripTrailingWs input))

/-- Modelled from claim C4's words: the byte at index `i` is emitted
literally exactly when it is TAB, LF, CR or in [0x20,0x3C] ∪ [0x3E,0x7E]
and it is not a SPACE or TAB that is the last byte of the input or
immediately precedes a CR or LF byte. -/
def specLiteral (B : List Nat) (i : Nat) : Bool :=
  let b := B.getD i 0
  (b == 9 || b == 10 || b == 13 || (32 ≤ b && b ≤ 60) ||
    (62 ≤ b && b ≤ 126)) &&
  !((b == 32 || b == 9) &&
    (i + 1 == B.length || B.getD (i + 1) 0 == 13 || B.getD (i + 1) 0 == 10))

/-- Modelled from claim C4's words: `=XX` with XX the two-digit uppercase
hexadecimal value of the byte. -/
def specHex (b : Nat) : List Nat := [61, hexDig (b / 16), hexDig (b % 16)]

/-- Modelled from claim C4's words: the whole per-byte emission rule. -/
def encodeSpec (B : List Nat) : List Nat :=
  ((List.range B.length).map (fun i =>
    if specLiteral B i then [B.getD i 0] else specHex (B.getD i 0))).flatten

/-- The input text carried by a list of chunks (what the wrap loop has
not yet consumed when the chunks are the loop's remaining output). -/
def restContent (rest : List (List Nat × Bool)) : List Nat :=
  (rest.map Prod.fst).flatten

/-- Every chunk followed by a soft break either does not split a
multi-byte escape run from the text that follows it, or consists
entirely of `=XX` escapes, or is at most 3 characters long. -/
def safeBreaks : List (List Nat × Bool) → Bool
  | [] => true
  | (c, brk) :: rest =>
    (!brk || !splitPair c (restContent rest) || allEscapes c ||
      decide (c.length ≤ 3)) && safeBreaks rest

end Libqp

namespace Mailhog

/-!
Models of the mail-level code: `src/index.js`, the historical `index.js`
versions (src/unnamed/part_003, part_004), `src/mailhog.js` and
`src/src/*`.  JS strings are lists of UTF-16 code units.  Node builtins
(`Buffer`, `iconv-lite`) are not part of this repository: their exact
behaviour is modelled where a theorem evaluates it and taken as a
function parameter where it does not matter.
-/

/-- ASCII lower-casing (`String.prototype.toLowerCase`).  The full
Unicode mapping differs only on non-ASCII code units, none of which
lower-case to an ASCII letter occurring in the encoding and charset
names compared below. -/
def asciiLower (c : Nat) : Nat := if 65 ≤ c && c ≤ 90 then c + 32 else c

def lowerStr (s : List Nat) : List Nat := s.map asciiLower

/-- `Array.prototype.toString`: entries joined with commas. -/
def joinComma : List (List Nat) → List Nat
  | [] => []
  | [x] => x
  | x :: xs => x ++ 44 :: joinComma xs

/-- `(part.Headers[key] || '').toString()`: a missing header is the
empty string, a present one (an array of strings in the MailHog JSON)
stringifies by joining with commas. -/
def hdrStr (h : Option (List (List Nat))) : List Nat :=
  match h with
  | none => []
  | some xs => joinComma xs

/-- A MIME part as the MailHog API delivers it, restricted to the
headers the library reads. -/
structure Part where
  contentType : Option (List (List Nat))
  transferEncoding : Option (List (List Nat))
  disposition : Option (List (List Nat))
  body : List Nat

/-- A mail object: content part plus optional MIME parts
(`mail.Content`, `mail.MIME.Parts`). -/
structure Mail where
  content : Part
  mime : Option (List Part)

/-- Worker for `utf8Decode`; `fuel` only bounds the number of decoded
code points (each step consumes at least one byte, so any fuel at least
the byte count is enough). -/
def utf8DecodeGo : Nat → List Nat → List Nat
  | 0, _ => []
  | _, [] => []
  | fuel + 1, b1 :: r =>
    if b1 < 128 then b1 :: utf8DecodeGo fuel r
    else if 194 ≤ b1 && b1 ≤ 223 then
      match r with
      | b2 :: r2 =>
        if 128 ≤ b2 && b2 < 192 then
          ((b1 - 192) * 64 + (b2 - 128)) :: utf8DecodeGo fuel r2
        else 65533 :: utf8DecodeGo fuel r
      | [] => [65533]
    else if 224 ≤ b1 && b1 ≤ 239 then
      match r with
      | b2 :: b3 :: r3 =>
        if (128 ≤ b2 && b2 < 192) && (128 ≤ b3 && b3 < 192) &&
            !(b1 == 224 && b2 < 160) && !(b1 == 237 && 160 ≤ b2) then
          ((b1 - 224) * 4096 + (b2 - 128) * 64 + (b3 - 128)) ::
            utf8DecodeGo fuel r3
        else 65533 :: utf8DecodeGo fuel r
      | _ => 65533 :: utf8DecodeGo fuel r
    else if 240 ≤ b1 && b1 ≤ 244 then
      match r with
      | b2 :: b3 :: b4 :: r4 =>
        if (128 ≤ b2 && b2 < 192) && (128 ≤ b3 && b3 < 192) &&
            (128 ≤ b4 && b4 < 192) && !(b1 == 240 && b2 < 144) &&
            !(b1 == 244 && 144 ≤ b2) then
          let cp := (b1 - 240) * 262144 + (b2 - 128) * 4096 +
            (b3 - 128) * 64 + (b4 - 128)
          (55296 + (cp - 65536) / 1024) :: (56320 + (cp - 65536) % 1024) ::
            utf8DecodeGo fuel r4
        else 65533 :: utf8DecodeGo fuel r
      | _ => 65533 :: utf8DecodeGo fuel r
    else 65533 :: utf8DecodeGo fuel r

/-- Node's `buffer.toString('utf8')` (WHATWG UTF-8 decoding) as UTF-16
code units.  Exact on well-formed UTF-8; each ill-formed byte decodes to
U+FFFD (Node coalesces some ill-formed runs into fewer replacement
characters, a difference nothing below depends on). -/
def utf8Decode (bytes : List Nat) : List Nat :=
  utf8DecodeGo bytes.length bytes

/-- Worker for `utf8Encode`, fuelled like `utf8DecodeGo`. -/
def utf8EncodeGo : Nat → List Nat → List Nat
  | 0, _ => []
  | _, [] => []
  | fuel + 1, u :: r =>
    if u < 128 then u :: utf8EncodeGo fuel r
    else if u < 2048 then
      (192 + u / 64) :: (128 + u % 64) :: utf8EncodeGo fuel r
    else if 55296 ≤ u && u < 56320 then
      match r with
      | u2 :: r2 =>
        if 56320 ≤ u2 && u2 < 57344 then
          let cp := 65536 + (u - 55296) * 1024 + (u2 - 56320)
          (240 + cp / 262144) :: (128 + cp / 4096 % 64) ::
            (128 + cp / 64 % 64) :: (128 + cp % 64) :: utf8EncodeGo fuel r2
        else 239 :: 191 :: 189 :: utf8EncodeGo fuel r
      | [] => [239, 191, 189]
    else if 56320 ≤ u && u < 57344 then
      239 :: 191 :: 189 :: utf8EncodeGo fuel r
    else (224 + u / 4096) :: (128 + u / 64 % 64) :: (128 + u % 64) ::
      utf8EncodeGo fuel r

/-- Node's `Buffer.from(str, 'utf8')`: UTF-8 bytes of the string, with
unpaired surrogates replaced by U+FFFD. -/
def utf8Encode (s : List Nat) : List Nat := utf8EncodeGo s.length s

/-- Node's `Buffer.from(str, 'hex')`: hexadecimal digit pairs, stopping
at the first invalid pair (a trailing lone digit is dropped). -/
def hexBytes : List Nat → List Nat
  | c1 :: c2 :: r =>
    if Libqp.isHexDigit c1 && Libqp.isHexDigit c2 then
      (16 * Libqp.hexVal c1 + Libqp.hexVal c2) :: hexBytes r
    else []
  | _ => []

/-- Base64 alphabet value (standard plus URL-safe variants, as Node
accepts both). -/
def b64Val (c : Nat) : Option Nat :=
  if 65 ≤ c && c ≤ 90 then some (c - 65)
  else if 97 ≤ c && c ≤ 122 then some (c - 71)
  else if 48 ≤ c && c ≤ 57 then some (c + 4)
  else if c == 43 || c == 45 then some 62
  else if c == 47 || c == 95 then some 63
  else none

def base64Go : List Nat → List Nat
  | a :: b :: c :: d :: r =>
    (a * 4 + b / 16) :: (b % 16 * 16 + c / 4) :: (c % 4 * 64 + d) ::
      base64Go r
  | [a, b, c] => [a * 4 + b / 16, b % 16 * 16 + c / 4]
  | [a, b] => [a * 4 + b / 16]
  | _ => []

/-- Node's `Buffer.from(str, 'base64')`: non-alphabet characters
(whitespace, `=` padding) are skipped, then 6-bit groups are packed
(Node additionally stops at padding mid-string, which nothing below
exercises). -/
def base64Bytes (s : List Nat) : List Nat := base64Go (s.filterMap b64Val)

/-- Node's `Buffer.from(str, 'utf16le')`. -/
def utf16leBytes : List Nat → List Nat
  | [] => []
  | u :: r => (u % 256) :: (u / 256 % 256) :: utf16leBytes r

/-- Node's `Buffer.from(string, encoding)` for lower-case encoding
names: the recognized names fill a buffer, unknown names throw
`ERR_UNKNOWN_ENCODING` (modelled as `none`); an empty encoding counts as
utf8.  `'ascii'` writes like `'latin1'` in current Node. -/
def nodeBufferFrom (str enc : List Nat) : Option (List Nat) :=
  if enc == ([] : List Nat) || enc == units "utf8" || enc == units "utf-8"
  then some (utf8Encode str)
  else if enc == units "hex" then some (hexBytes str)
  else if enc == units "latin1" || enc == units "binary" ||
      enc == units "ascii" then some (str.map (· % 256))
  else if enc == units "base64" || enc == units "base64url" then
    some (base64Bytes str)
  else if enc == units "utf16le" || enc == units "utf-16le" ||
      enc == units "ucs2" || enc == units "ucs-2" then
    some (utf16leBytes str)
  else none

/-- `/utf-?8/i.test(charset)` — the unanchored test of `charsetDecode`
in src/mailhog.js and src/src/index.js. -/
def utf8TestLoose (s : List Nat) : Bool :=
  (List.range s.length).any (fun i =>
    (units "utf8").isPrefixOf ((lowerStr s).drop i) ||
    (units "utf-8").isPrefixOf ((lowerStr s).drop i))

/-- `/^utf-?8$/i.test(charset)` — the anchored test of src/index.js and
the part_003/part_004 decoders. -/
def utf8TestAnchored (s : List Nat) : Bool :=
  lowerStr s == units "utf8" || lowerStr s == units "utf-8"

/-- `charsetDecode(buffer, charset)` from src/mailhog.js /
src/src/index.js; `iconv` stands for iconv-lite's decoder, which is not
part of this repository. -/
def charsetDecode (iconv : List Nat → List Nat → List Nat)
    (buffer : List Nat) (charset : Option (List Nat)) : List Nat :=
  match charset with
  | none => utf8Decode buffer
  | some cs =>
    if cs.isEmpty || utf8TestLoose cs then utf8Decode buffer
    else iconv buffer cs

/-- `decode(str, encoding, charset)` from src/src/index.js /
src/mailhog.js: base64 and quoted-printable decode to a buffer that is
charset-decoded; any other encoding returns the string as is.  `b64`
stands for Node's base64 `Buffer` constructor. -/
def decodeV2 (b64 : List Nat → List Nat)
    (iconv : List Nat → List Nat → List Nat)
    (str encoding : List Nat) (charset : Option (List Nat)) : List Nat :=
  let enc := lowerStr encoding
  if enc == units "base64" then charsetDecode iconv (b64 str) charset
  else if enc == units "quoted-printable" then
    charsetDecode iconv (Libqp.decode str) charset
  else str

/-- `\w`. -/
def isWordChar (c : Nat) : Bool :=
  (48 ≤ c && c ≤ 57) || (65 ≤ c && c ≤ 90) || (97 ≤ c && c ≤ 122) ||
  c == 95

/-- The `charset=` parameter class `[\w_-]`. -/
def isCsChar (c : Nat) : Bool := isWordChar c || c == 45

/-- One attempt of `/\bcharset=([\w_-]+)(?:;|$)/` at position `i`: word
boundary, literal `charset=`, maximal nonempty `[\w_-]` run, then `;` or
the end (the greedy run cannot backtrack into a `;`). -/
def charsetMatchAt (s : List Nat) (i : Nat) : Option (List Nat) :=
  if (i == 0 || !isWordChar (s.getD (i - 1) 0)) &&
      (units "charset=").isPrefixOf (s.drop i) then
    let run := (s.drop (i + 8)).takeWhile isCsChar
    let rest := (s.drop (i + 8)).dropWhile isCsChar
    if run.length != 0 && (rest.head? == none || rest.head? == some 59) then
      some run
    else none
  else none

/-- `RegExp.prototype.exec`: the leftmost match's capture. -/
def charsetOf (s : List Nat) : Option (List Nat) :=
  (List.range s.length).findSome? (charsetMatchAt s)

/-- `/^text\/plain($|;)/i` and `/^text\/html($|;)/i` as a prefix test. -/
def typeTest (pat : List Nat) (s : List Nat) : Bool :=
  pat.isPrefixOf (lowerStr s) &&
  (match (lowerStr s).drop pat.length with
   | [] => true
   | c :: _ => c == 59)

def textPlainRE (s : List Nat) : Bool := typeTest (units "text/plain") s

/-- `getContentPart(mail, typeRegExp)` from src/src/getContentPart.js:
candidate list, first part matching by Content-Type, charset parse,
decode of the body. -/
def getContentPart (b64 : List Nat → List Nat)
    (iconv : List Nat → List Nat → List Nat) (mail : Mail)
    (typeRegExp : List Nat → Bool) : Option (List Nat × List Nat) :=
  let parts := match mail.mime with
    | some ps => mail.content :: ps
    | none => [mail.content]
  match parts.find? (fun part => typeRegExp (hdrStr part.contentType)) with
  | none => none
  | some matchingPart =>
    some (hdrStr matchingPart.contentType,
      decodeV2 b64 iconv matchingPart.body
        (hdrStr matchingPart.transferEncoding)
        (charsetOf (hdrStr matchingPart.contentType)))

/-- Modelled from claim C7's words: the first part of the candidate list
(content part first, MIME parts in their original order) whose
Content-Type satisfies the predicate. -/
def firstPart (p : List Nat → Bool) : List Part → Option Part
  | [] => none
  | part :: rest =>
    if p (hdrStr part.contentType) then some part else firstPart p rest

/-- Modelled from claim C7's words: select the first matching part and
decode it with its own transfer encoding and the charset parsed from its
Content-Type (UTF-8 when absent); absence when nothing matches. -/
def selectPartSpec (b64 : List Nat → List Nat)
    (iconv : List Nat → List Nat → List Nat) (mail : Mail)
    (p : List Nat → Bool) : Option (List Nat × List Nat) :=
  match firstPart p (mail.content :: mail.mime.getD []) with
  | none => none
  | some part =>
    some (hdrStr part.contentType,
      decodeV2 b64 iconv part.body (hdrStr part.transferEncoding)
        (charsetOf (hdrStr part.contentType)))

/-- `/^(7|8)bit|binary|x-.+$/.test(encoding)`: the alternation binds so
that `(7|8)bit` is anchored only at the start, `binary` matches anywhere
and `x-` followed by at least one non-line-break character must reach
the end. -/
def extTokenTest (s : List Nat) : Bool :=
  (units "7bit").isPrefixOf s || (units "8bit").isPrefixOf s ||
  (List.range s.length).any (fun i =>
    (units "binary").isPrefixOf (s.drop i)) ||
  (List.range s.length).any (fun i =>
    (units "x-").isPrefixOf (s.drop i) && decide (i + 2 < s.length) &&
    (s.drop (i + 2)).all (fun c => !Libqp.isLineTerm c))

/-- `decode(str, encoding, charset)` from src/unnamed/part_003: an
encoding matching the extension-token pattern returns the string before
any buffer work; quoted-printable decodes via libqp; anything else is
handed to `Buffer.from`, which transforms recognized names and throws on
unknown ones (`none`). -/
def decodeV3 (bufferFrom : List Nat → List Nat → Option (List Nat))
    (iconv : List Nat → List Nat → List Nat)
    (str encoding : List Nat) (charset : Option (List Nat)) :
    Option (List Nat) :=
  let enc := if encoding.isEmpty then encoding else lowerStr encoding
  if !encoding.isEmpty && extTokenTest enc then some str
  else
    (if enc == units "quoted-printable" then some (Libqp.decode str)
     else bufferFrom str enc).map (fun buf =>
      match charset with
      | none => utf8Decode buf
      | some cs =>
        if cs.isEmpty || utf8TestAnchored cs then utf8Decode buf
        else iconv buf cs)

/-- `decode(str, encoding, charset)` from src/index.js in the
`buffer.toString()` case (charset absent, empty or UTF-8): base64 and
quoted-printable buffers are stringified, every other encoding falls to
the default branch, which keeps the string itself. -/
def decodeV1utf8 (b64 : List Nat → List Nat) (str encoding : List Nat) :
    List Nat :=
  let enc := lowerStr encoding
  if enc == units "base64" then utf8Decode (b64 str)
  else if enc == units "quoted-printable" then
    utf8Decode (Libqp.decode str)
  else str

/-- JS `\s` on UTF-16 code units: the ASCII whitespace characters plus
NBSP (U+00A0), Ogham space mark (U+1680), the Zs spaces U+2000–U+200A,
the line and paragraph separators (U+2028, U+2029), narrow no-break
space (U+202F), medium mathematical space (U+205F), ideographic space
(U+3000), and the BOM (U+FEFF). -/
def isJsWs (c : Nat) : Bool :=
  c == 32 || c == 9 || c == 10 || c == 13 || c == 11 || c == 12 ||
  c == 160 || c == 5760 || (8192 ≤ c && c ≤ 8202) || c == 8232 ||
  c == 8233 || c == 8239 || c == 8287 || c == 12288 || c == 65279

/-- `/^attachment;\s*filename="?([^"]+)"?$/.exec(value)`: the capture
when the whole value matches.  Backtracking analysed: `\s*` cannot give
back (the next literal starts with `f`), and the capture is the maximal
run of non-quote characters after the optional opening quote, which must
be followed by nothing or a single closing quote. -/
def cdMatchAnchored (s : List Nat) : Option (List Nat) :=
  if (units "attachment;").isPrefixOf s then
    let t1 := (s.drop 11).dropWhile isJsWs
    if (units "filename=").isPrefixOf t1 then
      let t2 := t1.drop 9
      let t3 := if t2.head? == some 34 then t2.drop 1 else t2
      let name := t3.takeWhile (fun c => c != 34)
      let rest := t3.dropWhile (fun c => c != 34)
      if name.length != 0 && (rest == ([] : List Nat) || rest == [34]) then
        some name
      else none
    else none
  else none

/-- Modelled from claim C8's words: the same pattern without anchors,
matched at position `i`. -/
def cdMatchAt (s : List Nat) (i : Nat) : Option (List Nat) :=
  let t := s.drop i
  if (units "attachment;").isPrefixOf t then
    let t1 := (t.drop 11).dropWhile isJsWs
    if (units "filename=").isPrefixOf t1 then
      let t2 := t1.drop 9
      let t3 := if t2.head? == some 34 then t2.drop 1 else t2
      let name := t3.takeWhile (fun c => c != 34)
      if name.length != 0 then some name else none
    else none
  else none

/-- Modelled from claim C8's words: leftmost unanchored match. -/
def cdMatchClaimed (s : List Nat) : Option (List Nat) :=
  (List.range s.length).findSome? (cdMatchAt s)

/-- `getAttachments` from part_003/part_004: each MIME part whose
Content-Disposition header matches the anchored pattern becomes an
attachment — the part itself (body untouched), with the captured
filename as its name — in the original order; no MIME parts means an
empty list. -/
def getAttachments (m : Mail) : List (List Nat × Part) :=
  match m.mime with
  | none => []
  | some parts =>
    parts.filterMap (fun part =>
      (cdMatchAnchored (hdrStr part.disposition)).map
        (fun name => (name, part)))

/-- Modelled from claim C8's words, with the unanchored pattern the
claim states. -/
def getAttachmentsClaimed (m : Mail) : List (List Nat × Part) :=
  match m.mime with
  | none => []
  | some parts =>
    parts.filterMap (fun part =>
      (cdMatchClaimed (hdrStr part.disposition)).map
        (fun name => (name, part)))

/-- The memoized-getter state of one mail item under src/index.js,
restricted to the `to` property: after any of the buggy getters has run,
`to` is a plain data property holding that getter's value. -/
structure ViewV1 where
  toSlot : Option (List Nat)

/-- A fresh view: all getters installed, nothing cached. -/
def viewNew : ViewV1 := ⟨none⟩

/-- Reading `.to` (src/index.js `getTo`): the cached data property if
present, else the getter runs `delete this.to; this.to = getHeader(this,
'To')`. -/
def readTo (toH : List Nat) (s : ViewV1) : List Nat × ViewV1 :=
  match s.toSlot with
  | some v => (v, s)
  | none => (toH, ⟨some toH⟩)

/-- Reading `.cc` (src/index.js `getCc`): the `cc` accessor is never
replaced, so the getter runs on every read and executes `delete this.to;
this.to = getHeader(this, 'Cc')`, clobbering the `to` property. -/
def readCc (ccH : List Nat) (_ : ViewV1) : List Nat × ViewV1 :=
  (ccH, ⟨some ccH⟩)

end Mailhog

namespace Libqp

theorem take_pre (n : Nat) (l : List Nat) : l.take n <+: l :=
  List.take_prefix n l

theorem goodQP_tail {c : Nat} {r : List Nat} (h : goodQP (c :: r) = true) :
    goodQP r = true := by
  simp only [goodQP, Bool.and_eq_true] at h
  exact h.2

theorem gsOK_tail {c : Nat} {r : List Nat} (h : gsOK (c :: r) = true) :
    gsOK r = true := by
  simp only [gsOK, Bool.and_eq_true] at h
  exact h.2

theorem isHexDigit_ranges {c : Nat} (h : isHexDigit c = true) :
    (48 ≤ c ∧ c ≤ 57) ∨ (65 ≤ c ∧ c ≤ 70) ∨ (97 ≤ c ∧ c ≤ 102) := by
  simp only [isHexDigit, Bool.or_eq_true, Bool.and_eq_true, decide_eq_true_eq,
    Nat.le_iff_lt_or_eq] at h
  omega

theorem isHexDigit_ne {c : Nat} (h : isHexDigit c = true) :
    c ≠ 61 ∧ c ≠ 10 ∧ c ≠ 13 ∧ c ≠ 9 ∧ c ≠ 32 ∧ isLineTerm c = false := by
  have := isHexDigit_ranges h
  refine ⟨by omega, by omega, by omega, by omega, by omega, ?_⟩
  simp only [isLineTerm, Bool.or_eq_false_iff, beq_eq_false_iff_ne, ne_eq]
  omega

theorem hexDig_isHexDigit {x : Nat} (h : x < 16) :
    isHexDigit (hexDig x) = true := by
  simp only [hexDig, isHexDigit]
  split <;> simp <;> omega

theorem hexVal_hexDig {x : Nat} (h : x < 16) : hexVal (hexDig x) = x := by
  simp only [hexDig, hexVal]
  split
  · rw [if_pos (by simp; omega)]; omega
  · rw [if_neg (by simp; omega), if_pos (by simp; omega)]; omega

/-! ### Conditional unfolding lemmas -/

theorem scanQP_cons_ne {c : Nat} {r : List Nat} (hc : c ≠ 61) :
    scanQP (c :: r) = (c % 256) :: scanQP r := by
  rcases r with _ | ⟨h1, _ | ⟨h2, r2⟩⟩ <;> simp [scanQP, hc]

theorem scanQP_esc {h1 h2 : Nat} {r : List Nat} (hh1 : isHexDigit h1 = true)
    (hh2 : isHexDigit h2 = true) :
    scanQP (61 :: h1 :: h2 :: r) = (16 * hexVal h1 + hexVal h2) :: scanQP r := by
  simp [scanQP, hh1, hh2]

theorem rsb_cons_ne {c : Nat} {r : List Nat} (hc : c ≠ 61) :
    removeSoftBreaks (c :: r) = c :: removeSoftBreaks r := by
  rcases r with _ | ⟨d, _ | ⟨e, r2⟩⟩ <;> simp [removeSoftBreaks, hc]

theorem rsb_cons61 {d : Nat} {r : List Nat} (h10 : d ≠ 10) (h13 : d ≠ 13) :
    removeSoftBreaks (61 :: d :: r) = 61 :: removeSoftBreaks (d :: r) := by
  rcases r with _ | ⟨e, r2⟩ <;> simp [removeSoftBreaks, h10, h13]

/-! ### The encoder only produces well-formed text -/

theorem encode_cons (b : Nat) (r : List Nat) :
    encode (b :: r) =
      (if qpAllowed b &&
          !((b == 32 || b == 9) &&
            (match r with | [] => true | c :: _ => c == 10 || c == 13)) then
         [b]
       else escByte b) ++ encode r := rfl

theorem qpAllowed_ne_61 {b : Nat} (h : qpAllowed b = true) : b ≠ 61 := by
  simp only [qpAllowed, Bool.or_eq_true, beq_iff_eq, Bool.and_eq_true,
    decide_eq_true_eq] at h
  omega

theorem encode_head (c : Nat) (r2 : List Nat) :
    ∃ t, encode (c :: r2) = c :: t ∨ encode (c :: r2) = 61 :: t := by
  rw [encode_cons]
  split
  · exact ⟨encode r2, Or.inl rfl⟩
  · refine ⟨(escByte c).tail ++ encode r2, Or.inr ?_⟩
    simp only [escByte]
    split <;> rfl

theorem goodQP_cons_hex {x : Nat} {r : List Nat} (hx : isHexDigit x = true) :
    goodQP (x :: r) = goodQP r := by
  obtain ⟨h61, _, _, h9, h32, _⟩ := isHexDigit_ne hx
  simp [goodQP, h61, h9, h32]

theorem goodQP_cons61 {h1 h2 : Nat} {r : List Nat} (hh1 : isHexDigit h1 = true)
    (hh2 : isHexDigit h2 = true) :
    goodQP (61 :: h1 :: h2 :: r) = goodQP (h1 :: h2 :: r) := by
  simp [goodQP, hh1, hh2]

theorem escByte_form (b : Nat) (hb : b < 256) :
    ∃ x y, escByte b = [61, x, y] ∧ isHexDigit x = true ∧ isHexDigit y = true ∧
      16 * hexVal x + hexVal y = b := by
  by_cases h16 : b < 16
  · refine ⟨48, hexDig b, by simp [escByte, h16], by simp [isHexDigit],
      hexDig_isHexDigit h16, ?_⟩
    have h48 : hexVal 48 = 0 := by simp [hexVal]
    rw [h48, hexVal_hexDig h16]
    omega
  · refine ⟨hexDig (b / 16), hexDig (b % 16), by simp [escByte, h16],
      hexDig_isHexDigit (by omega), hexDig_isHexDigit (by omega), ?_⟩
    rw [hexVal_hexDig (by omega), hexVal_hexDig (by omega)]
    omega

theorem goodQP_esc_append {b : Nat} (hb : b < 256) (s : List Nat) :
    goodQP (escByte b ++ s) = goodQP s := by
  obtain ⟨x, y, hesc, hx, hy, _⟩ := escByte_form b hb
  rw [hesc]
  show goodQP (61 :: x :: y :: s) = goodQP s
  rw [goodQP_cons61 hx hy, goodQP_cons_hex hx, goodQP_cons_hex hy]

theorem goodQP_cons (c : Nat) (r : List Nat) :
    goodQP (c :: r) =
      ((if c == 61 then
          match r with
          | h1 :: h2 :: _ => isHexDigit h1 && isHexDigit h2
          | _ => false
        else if c == 9 || c == 32 then
          match r with
          | [] => false
          | d :: _ => !isLineTerm d
        else true) &&
       goodQP r) := rfl

theorem isLineTerm_false_of_lt {c : Nat} (h256 : c < 256) (h10 : c ≠ 10)
    (h13 : c ≠ 13) : isLineTerm c = false := by
  simp only [isLineTerm, Bool.or_eq_false_iff, beq_eq_false_iff_ne, ne_eq]
  omega

theorem goodQP_encode : ∀ B : List Nat, (∀ b ∈ B, b < 256) →
    goodQP (encode B) = true := by
  intro B
  induction B with
  | nil => intro _; rfl
  | cons b rest ih =>
    intro hlt
    have hb : b < 256 := hlt b (by simp)
    have hrest : ∀ x ∈ rest, x < 256 := fun x hx => hlt x (by simp [hx])
    rw [encode_cons]
    split
    · next hkeep =>
      rw [Bool.and_eq_true] at hkeep
      obtain ⟨hallow, hws⟩ := hkeep
      rw [Bool.not_eq_eq_eq_not, Bool.not_true, Bool.and_eq_false_iff] at hws
      have hb61 : (b == 61) = false := by
        simpa using qpAllowed_ne_61 hallow
      rw [List.singleton_append, goodQP_cons, if_neg (by simp [hb61])]
      rcases hws with hws | hmatch
      · -- b is not a space or tab
        simp only [Bool.or_eq_false_iff, beq_eq_false_iff_ne, ne_eq] at hws
        rw [if_neg (by simp [hws.1, hws.2])]
        simpa using ih hrest
      · -- b is a kept space/tab: rest starts with a non-terminator
        rcases rest with _ | ⟨c, r2⟩
        · simp at hmatch
        · have hc : (c == 10 || c == 13) = false := hmatch
          simp only [Bool.or_eq_false_iff, beq_eq_false_iff_ne, ne_eq] at hc
          have hc256 : c < 256 := hrest c (by simp)
          obtain ⟨t, ht | ht⟩ := encode_head c r2
          · rw [ht]
            split
            · have hred : (match (c :: t : List Nat) with
                  | [] => false
                  | d :: _ => !isLineTerm d) = !isLineTerm c := rfl
              rw [hred, show (!isLineTerm c) = true by
                  simp [isLineTerm_false_of_lt hc256 hc.1 hc.2],
                Bool.true_and, ← ht]
              exact ih hrest
            · rw [Bool.true_and, ← ht]; exact ih hrest
          · rw [ht]
            split
            · have hred : (match (61 :: t : List Nat) with
                  | [] => false
                  | d :: _ => !isLineTerm d) = !isLineTerm 61 := rfl
              rw [hred, show (!isLineTerm 61) = true by simp [isLineTerm],
                Bool.true_and, ← ht]
              exact ih hrest
            · rw [Bool.true_and, ← ht]; exact ih hrest
    · rw [goodQP_esc_append hb]
      exact ih hrest

theorem goodQP_to_gsOK : ∀ s : List Nat, goodQP s = true → gsOK s = true := by
  intro s
  induction s with
  | nil => intro _; rfl
  | cons c r ih =>
    intro h
    have ht := ih (goodQP_tail h)
    simp only [goodQP, Bool.and_eq_true] at h
    simp only [gsOK, Bool.and_eq_true]
    refine ⟨?_, ht⟩
    by_cases hc : c == 61
    · rw [if_neg (by simp only [beq_iff_eq] at hc; simp [hc])]
    · rw [if_neg hc] at h
      by_cases hws : (c == 9 || c == 32) = true
      · rw [if_pos hws] at h ⊢
        exact h.1
      · rw [if_neg hws]

theorem stripGo_cons (p : List Nat) (c : Nat) (r : List Nat) :
    stripGo p (c :: r) =
      if c == 9 || c == 32 then stripGo (p ++ [c]) r
      else if isLineTerm c then c :: stripGo [] r
      else p ++ c :: stripGo [] r := rfl

theorem stripGo_eq : ∀ s : List Nat, gsOK s = true → ∀ p : List Nat,
    (p ≠ [] → ∃ d r, s = d :: r ∧ isLineTerm d = false) →
    stripGo p s = p ++ s := by
  intro s
  induction s with
  | nil =>
    intro _ p hp
    by_cases h0 : p = []
    · subst h0; rfl
    · obtain ⟨d, r, hdr, _⟩ := hp h0
      exact absurd hdr (by simp)
  | cons c r ih =>
    intro hgs p hp
    have htail := gsOK_tail hgs
    simp only [gsOK, Bool.and_eq_true] at hgs
    by_cases hws : (c == 9 || c == 32) = true
    · rw [if_pos hws] at hgs
      rcases hr : r with _ | ⟨d, r2⟩
      · rw [hr] at hgs; simp at hgs
      · subst hr
        have hd : isLineTerm d = false := by
          simpa using hgs.1
        rw [stripGo_cons, if_pos hws,
          ih htail (p ++ [c]) (fun _ => ⟨d, r2, rfl, hd⟩)]
        simp
    · by_cases hterm : isLineTerm c = true
      · have hp0 : p = [] := by
          by_cases h0 : p = []
          · exact h0
          · obtain ⟨d, r2, heq, hd⟩ := hp h0
            cases heq
            exact absurd hterm (by simp [hd])
        subst hp0
        rw [stripGo_cons, if_neg (by simp [hws]), if_pos hterm,
          ih htail [] (by simp)]
        simp
      · rw [stripGo_cons, if_neg (by simp [hws]), if_neg (by simp [hterm]),
          ih htail [] (by simp)]
        simp

theorem stripTrailingWs_of_gsOK {s : List Nat} (h : gsOK s = true) :
    stripTrailingWs s = s :=
  stripGo_eq s h [] (by simp)

theorem rsb_of_goodQP : ∀ s : List Nat, goodQP s = true →
    removeSoftBreaks s = s := by
  intro s
  induction s with
  | nil => intro _; rfl
  | cons c r ih =>
    intro h
    have ht := ih (goodQP_tail h)
    by_cases hc : c = 61
    · subst hc
      simp only [goodQP, Bool.and_eq_true] at h
      rw [if_pos (by simp)] at h
      rcases r with _ | ⟨h1, _ | ⟨h2, r2⟩⟩
      · simp at h
      · simp at h
      · have hh1 : isHexDigit h1 = true := by
          have := h.1; simp only [Bool.and_eq_true] at this; exact this.1
        obtain ⟨_, h10, h13, _⟩ := isHexDigit_ne hh1
        rw [rsb_cons61 h10 h13, ht]
    · rw [rsb_cons_ne hc, ht]

/-! ### Buffer sizing: the scan yields exactly the allocated length -/

theorem countEnc_cons_ne {c : Nat} {r : List Nat} (hc : c ≠ 61) :
    countEnc (c :: r) = countEnc r := by
  rcases r with _ | ⟨h1, _ | ⟨h2, r2⟩⟩ <;> simp [countEnc, hc]

theorem countEnc_esc {h1 h2 : Nat} {r : List Nat}
    (hh : (isHexDigit h1 && isHexDigit h2) = true) :
    countEnc (61 :: h1 :: h2 :: r) = 1 + countEnc r := by
  simp [countEnc, hh]

theorem countEnc_cons61_nothex {h1 h2 : Nat} {r : List Nat}
    (hh : ¬(isHexDigit h1 && isHexDigit h2) = true) :
    countEnc (61 :: h1 :: h2 :: r) = countEnc (h1 :: h2 :: r) := by
  simp [countEnc, hh]

theorem scanQP_cons61_nothex {h1 h2 : Nat} {r : List Nat}
    (hh : ¬(isHexDigit h1 && isHexDigit h2) = true) :
    scanQP (61 :: h1 :: h2 :: r) = 61 :: scanQP (h1 :: h2 :: r) := by
  simp [scanQP, hh]

theorem scanQP_length (s : List Nat) :
    (scanQP s).length + 2 * countEnc s = s.length := by
  induction s using scanQP.induct with
  | case1 h1 h2 r hh ih =>
    have hh2 := hh
    rw [Bool.and_eq_true] at hh2
    rw [scanQP_esc hh2.1 hh2.2, countEnc_esc hh]
    simp only [List.length_cons]
    omega
  | case2 h1 h2 r hh ih =>
    rw [scanQP_cons61_nothex hh, countEnc_cons61_nothex hh]
    simp only [List.length_cons] at ih ⊢
    omega
  | case3 c r hne ih =>
    have hc : c ≠ 61 ∨ ∀ h1 h2 r2, r ≠ h1 :: h2 :: r2 := by
      by_cases h : c = 61
      · subst h
        refine Or.inr fun h1 h2 r2 hr => hne h1 h2 r2 rfl hr
      · exact Or.inl h
    rcases hc with hc | hr
    · rw [scanQP_cons_ne hc, countEnc_cons_ne hc]
      simp only [List.length_cons] at ih ⊢
      omega
    · rcases r with _ | ⟨a, _ | ⟨b2, r2⟩⟩
      · simp [scanQP, countEnc]
      · rcases Nat.decEq c 61 with h | h <;>
          simp [scanQP, countEnc, h]
      · exact absurd rfl (hr a b2 r2)
  | case4 => rfl

/-- Relates `decode` to its scan: the allocated buffer length always
equals the number of bytes the scan writes, so no truncation or zero
padding occurs. -/
theorem decode_eq_scan (input : List Nat) :
    decode input = scanQP (removeSoftBreaks (stripTrailingWs input)) := by
  have hlen := scanQP_length (removeSoftBreaks (stripTrailingWs input))
  unfold decode
  dsimp only
  rw [show (removeSoftBreaks (stripTrailingWs input)).length -
        2 * countEnc (removeSoftBreaks (stripTrailingWs input)) =
        (scanQP (removeSoftBreaks (stripTrailingWs input))).length by omega,
    List.take_length]
  simp

/-! ### Round trip: decode ∘ encode = id (claim C1) -/

theorem scanQP_encode : ∀ B : List Nat, (∀ b ∈ B, b < 256) →
    scanQP (encode B) = B := by
  intro B
  induction B with
  | nil => intro _; rfl
  | cons b rest ih =>
    intro hlt
    have hb : b < 256 := hlt b (by simp)
    have hrest : ∀ x ∈ rest, x < 256 := fun x hx => hlt x (by simp [hx])
    rw [encode_cons]
    split
    · next hkeep =>
      rw [Bool.and_eq_true] at hkeep
      have hne : b ≠ 61 := qpAllowed_ne_61 hkeep.1
      rw [List.singleton_append, scanQP_cons_ne hne, Nat.mod_eq_of_lt hb,
        ih hrest]
    · obtain ⟨x, y, hesc, hx, hy, hval⟩ := escByte_form b hb
      rw [hesc, List.cons_append, List.cons_append, List.cons_append,
        List.nil_append, scanQP_esc hx hy, hval, ih hrest]

/-- Core round-trip fact: on encoder output, both decode preprocessing
passes are the identity and the scan inverts the encoder. -/
theorem decode_encode (B : List Nat) (hB : ∀ b ∈ B, b < 256) :
    decode (encode B) = B := by
  have hgood := goodQP_encode B hB
  rw [decode_eq_scan, stripTrailingWs_of_gsOK (goodQP_to_gsOK _ hgood),
    rsb_of_goodQP _ hgood, scanQP_encode B hB]

/-! ### Inserting soft break markers does not change the decoded bytes -/

/-- `Ins xs ys`: `ys` is `xs` with any number of soft break markers
`=\r\n` inserted at arbitrary positions. -/
inductive Ins : List Nat → List Nat → Prop
  | nil : Ins [] []
  | cons (c : Nat) {xs ys : List Nat} : Ins xs ys → Ins (c :: xs) (c :: ys)
  | brk {xs ys : List Nat} : Ins xs ys → Ins xs (61 :: 13 :: 10 :: ys)

theorem Ins.refl : ∀ xs : List Nat, Ins xs xs := by
  intro xs
  induction xs with
  | nil => exact Ins.nil
  | cons c r ih => exact Ins.cons c ih

theorem Ins.append_left {xs ys : List Nat} (a : List Nat) (h : Ins xs ys) :
    Ins (a ++ xs) (a ++ ys) := by
  induction a with
  | nil => exact h
  | cons c a ih => exact Ins.cons c ih

/-- Head inversion: the image of a nonempty list starts with either the
original head or a marker. -/
theorem Ins.head_shape {x : Nat} {xs ys : List Nat} (h : Ins (x :: xs) ys) :
    (∃ t, ys = x :: t ∧ Ins xs t) ∨
    (∃ t, ys = 61 :: 13 :: 10 :: t ∧ Ins (x :: xs) t) := by
  cases h with
  | cons _ h => exact Or.inl ⟨_, rfl, h⟩
  | brk h => exact Or.inr ⟨_, rfl, h⟩

theorem gsOK_cons (c : Nat) (r : List Nat) :
    gsOK (c :: r) =
      ((if c == 9 || c == 32 then
          match r with
          | [] => false
          | d :: _ => !isLineTerm d
        else true) &&
       gsOK r) := rfl

theorem gsOK_of_ins : ∀ {I T : List Nat}, Ins I T → goodQP I = true →
    gsOK T = true := by
  intro I T h
  induction h with
  | nil => intro _; rfl
  | cons c hIns ih =>
    intro hgood
    rename_i xs ys
    rw [gsOK_cons, Bool.and_eq_true]
    refine ⟨?_, ih (goodQP_tail hgood)⟩
    by_cases hws : (c == 9 || c == 32) = true
    · rw [if_pos hws]
      rw [goodQP_cons] at hgood
      rw [Bool.and_eq_true] at hgood
      have hc61 : (c == 61) = false := by
        simp only [Bool.or_eq_true, beq_iff_eq] at hws
        rcases hws with h | h <;> simp [h]
      rw [if_neg (by simp [hc61]), if_pos hws] at hgood
      rcases xs with _ | ⟨e, xs2⟩
      · exact absurd hgood.1 (by simp)
      · have he : isLineTerm e = false := by simpa using hgood.1
        rcases hIns.head_shape with ⟨t, rfl, _⟩ | ⟨t, rfl, _⟩
        · simpa using he
        · simp [isLineTerm]
    · rw [if_neg hws]
  | brk hIns ih =>
    intro hgood
    rw [gsOK_cons, if_neg (by simp), Bool.true_and,
      gsOK_cons, if_neg (by simp), Bool.true_and,
      gsOK_cons, if_neg (by simp), Bool.true_and]
    exact ih hgood

theorem rsb_of_ins : ∀ {I T : List Nat}, Ins I T → goodQP I = true →
    removeSoftBreaks T = I := by
  intro I T h
  induction h with
  | nil => intro _; rfl
  | cons c hIns ih =>
    intro hgood
    rename_i xs ys
    by_cases hc : c = 61
    · subst hc
      rw [goodQP_cons, Bool.and_eq_true, if_pos (by simp)] at hgood
      rcases xs with _ | ⟨h1, _ | ⟨h2, xs2⟩⟩
      · exact absurd hgood.1 (by simp)
      · exact absurd hgood.1 (by simp)
      · have hh1 : isHexDigit h1 = true := by
          have := hgood.1
          rw [Bool.and_eq_true] at this
          exact this.1
        obtain ⟨_, h10, h13, _⟩ := isHexDigit_ne hh1
        rcases hIns.head_shape with ⟨t, rfl, _⟩ | ⟨t, rfl, _⟩
        · rw [rsb_cons61 h10 h13, ih hgood.2]
        · rw [rsb_cons61 (by omega) (by omega), ih hgood.2]
    · rw [rsb_cons_ne hc, ih (goodQP_tail hgood)]
  | brk hIns ih =>
    intro hgood
    show removeSoftBreaks (61 :: 13 :: 10 :: _) = _
    rw [show ∀ ys : List Nat, removeSoftBreaks (61 :: 13 :: 10 :: ys) =
        removeSoftBreaks ys from fun _ => rfl]
    exact ih hgood

/-- Decoding is invariant under inserting soft break markers into
well-formed text. -/
theorem decode_of_ins {I T : List Nat} (h : Ins I T)
    (hgood : goodQP I = true) :
    decode T = scanQP I := by
  rw [decode_eq_scan, stripTrailingWs_of_gsOK (gsOK_of_ins h hgood),
    rsb_of_ins h hgood]

/-! ### The wrap loop consumes a nonempty prefix at every iteration -/

theorem goodQP_drop : ∀ (pos : Nat) (I : List Nat), goodQP I = true →
    goodQP (I.drop pos) = true := by
  intro pos
  induction pos with
  | zero => intro I h; simpa using h
  | succ n ih =>
    intro I h
    rcases I with _ | ⟨c, r⟩
    · simp [goodQP]
    · rw [List.drop_succ_cons]
      exact ih r (goodQP_tail h)

theorem goodQP_getLast : ∀ s : List Nat, goodQP s = true →
    s.getLast? ≠ some 61 := by
  intro s
  induction s with
  | nil => intro _; simp
  | cons c r ih =>
    intro h
    rcases r with _ | ⟨d, r2⟩
    · by_cases hc : c = 61
      · subst hc
        rw [goodQP_cons] at h
        simp at h
      · simpa using hc
    · rw [List.getLast?_cons_cons]
      exact ih (goodQP_tail h)

theorem goodQP_drop2 : ∀ s : List Nat, goodQP s = true →
    ∀ x, s.drop (s.length - 2) ≠ [61, x] := by
  intro s
  induction s with
  | nil => intro _ x; simp
  | cons c r ih =>
    intro h x
    rcases r with _ | ⟨d, _ | ⟨e, r2⟩⟩
    · simp
    · -- two-element list: drop 0 yields the list itself
      intro hx
      have h0 : (c :: d :: ([] : List Nat)).length - 2 = 0 := by simp
      rw [h0, List.drop_zero] at hx
      cases hx
      rw [goodQP_cons] at h
      simp at h
    · -- three or more: step to the tail
      have harith : (c :: d :: e :: r2).length - 2 = (d :: e :: r2).length - 2 + 1 := by
        simp only [List.length_cons]
        omega
      rw [harith, List.drop_succ_cons]
      exact ih (goodQP_tail h) x

theorem goodQP_eq01 {s : List Nat} (h : goodQP s = true) :
    eq01Match s = none := by
  have h1 := goodQP_getLast s h
  have h2 := goodQP_drop2 s h
  unfold eq01Match
  rw [if_neg (by simpa using h1)]
  rcases hc : charAt s (s.length - 2) with _ | e
  · rfl
  · rcases hl : s.getLast? with _ | x
    · rfl
    · have hfalse : (decide (2 ≤ s.length) && e == 61 && isHexDigit x) = false := by
        by_contra hh
        rw [Bool.not_eq_false, Bool.and_eq_true, Bool.and_eq_true] at hh
        obtain ⟨⟨hlen2, he⟩, _⟩ := hh
        replace hlen2 : 2 ≤ s.length := by simpa using hlen2
        replace he : e = 61 := by simpa using he
        subst he
        have hlent : (s.drop (s.length - 2)).length = 2 := by
          rw [List.length_drop]; omega
        rcases ht : s.drop (s.length - 2) with _ | ⟨a, _ | ⟨b, t2⟩⟩
        · rw [ht] at hlent; simp at hlent
        · rw [ht] at hlent; simp at hlent
        · have ht2 : t2 = [] := by
            rw [ht] at hlent
            simp only [List.length_cons] at hlent
            exact List.length_eq_zero.mp (by omega)
          subst ht2
          have ha : a = 61 := by
            unfold charAt at hc
            rw [ht] at hc
            simpa using hc
          subst ha
          exact h2 b ht
      simp [hfalse]

theorem eq01Match_le {line : List Nat} {m : Nat}
    (h : eq01Match line = some m) : 1 ≤ m ∧ m ≤ 2 := by
  unfold eq01Match at h
  split at h
  · cases h; omega
  · split at h
    · split at h
      · cases h; omega
      · cases h
    · cases h

theorem backoffGo_spec (len pos : Nat) : ∀ (fuel : Nat) (l : List Nat),
    backoffGo len pos fuel l <+: l ∧ (l ≠ [] → backoffGo len pos fuel l ≠ []) := by
  intro fuel
  induction fuel with
  | zero => intro l; exact ⟨List.prefix_refl l, fun h => h⟩
  | succ n ih =>
    intro l
    unfold backoffGo
    split
    · next hguard =>
      have hlen : 3 < l.length := by
        rw [Bool.and_eq_true, Bool.and_eq_true] at hguard
        simpa using hguard.1.1
      have htake : l.take (l.length - 3) <+: l := take_pre _ l
      have htakene : l.take (l.length - 3) ≠ [] := by
        rw [ne_eq, List.take_eq_nil_iff]
        push_neg
        exact ⟨by omega, by
          intro hl
          rw [hl] at hlen
          simp at hlen⟩
      split
      · -- a trailing complete escape was found
        split
        · exact ⟨List.prefix_refl l, fun h => h⟩
        · dsimp only
          split
          · exact ⟨htake, fun _ => htakene⟩
          · obtain ⟨hp, hn⟩ := ih (l.take (l.length - 3))
            exact ⟨hp.trans htake, fun _ => hn htakene⟩
      · exact ⟨List.prefix_refl l, fun h => h⟩
    · exact ⟨List.prefix_refl l, fun h => h⟩

theorem utf8Backoff_spec (len pos : Nat) (l : List Nat) :
    utf8Backoff len pos l <+: l ∧ (l ≠ [] → utf8Backoff len pos l ≠ []) :=
  backoffGo_spec len pos l.length l

theorem stepEsc_spec {I : List Nat} {maxLength len pos : Nat}
    (hgood : goodQP (I.drop pos) = true) (hmax : 4 ≤ maxLength)
    {line : List Nat} (hline : line = (I.drop pos).take maxLength)
    (hne : line ≠ []) :
    stepEsc len pos line <+: line ∧ stepEsc len pos line ≠ [] := by
  unfold stepEsc
  split
  · rcases hm : eq01Match line with _ | m
    · obtain ⟨hp, hn⟩ := utf8Backoff_spec len pos line
      exact ⟨hp, hn hne⟩
    · obtain ⟨hm1, hm2⟩ := eq01Match_le hm
      have hlong : maxLength ≤ (I.drop pos).length := by
        by_contra hlt
        push_neg at hlt
        have hfull : line = I.drop pos := by
          rw [hline, List.take_of_length_le (by omega)]
        rw [hfull] at hm
        rw [goodQP_eq01 hgood] at hm
        cases hm
      have hlen : line.length = maxLength := by
        rw [hline, List.length_take]
        omega
      have htake : line.take (line.length - m) <+: line := take_pre _ _
      have htakene : line.take (line.length - m) ≠ [] := by
        rw [ne_eq, List.take_eq_nil_iff]
        push_neg
        exact ⟨by omega, hne⟩
      obtain ⟨hp, hn⟩ := utf8Backoff_spec len pos (line.take (line.length - m))
      exact ⟨hp.trans htake, hn htakene⟩
  · exact ⟨List.prefix_refl line, hne⟩

theorem stepLine1_spec {I : List Nat} {maxLength lineMargin len pos : Nat}
    (hgood : goodQP (I.drop pos) = true) (hmax : 4 ≤ maxLength)
    {line : List Nat} (hline : line = (I.drop pos).take maxLength)
    (hne : line ≠ []) :
    stepLine1 maxLength lineMargin len pos line <+: line ∧
    stepLine1 maxLength lineMargin len pos line ≠ [] := by
  unfold stepLine1
  split
  · rcases hj : lastIdxOf isPunct (substrNeg line lineMargin) with _ | j
    · exact stepEsc_spec hgood hmax hline hne
    · refine ⟨take_pre _ _, ?_⟩
      rw [ne_eq, List.take_eq_nil_iff]
      push_neg
      exact ⟨by omega, hne⟩
  · exact stepEsc_spec hgood hmax hline hne

theorem stepTrim_spec {maxLength : Nat} (hmax : 4 ≤ maxLength)
    {line1 : List Nat} (hne : line1 ≠ []) :
    stepTrim maxLength line1 <+: line1 ∧ stepTrim maxLength line1 ≠ [] := by
  unfold stepTrim
  split
  · next hcond =>
    rw [Bool.and_eq_true] at hcond
    have hlen : line1.length = maxLength := by simpa using hcond.1
    refine ⟨take_pre _ _, ?_⟩
    rw [ne_eq, List.take_eq_nil_iff]
    push_neg
    exact ⟨by omega, hne⟩
  · split
    · next hcond =>
      have hlen : line1.length = maxLength := by simpa using hcond
      refine ⟨take_pre _ _, ?_⟩
      rw [ne_eq, List.take_eq_nil_iff]
      push_neg
      exact ⟨by omega, hne⟩
    · exact ⟨List.prefix_refl line1, hne⟩

theorem wrapStep_spec {I : List Nat} {maxLength lineMargin pos : Nat}
    (hgood : goodQP I = true) (hmax : 4 ≤ maxLength)
    (hpos : pos < I.length) :
    (wrapStep maxLength lineMargin I.length pos I).1 <+: I.drop pos ∧
    (wrapStep maxLength lineMargin I.length pos I).1 ≠ [] := by
  have hdropne : I.drop pos ≠ [] := by
    rw [ne_eq, List.drop_eq_nil_iff]
    omega
  have hlinene : (I.drop pos).take maxLength ≠ [] := by
    rw [ne_eq, List.take_eq_nil_iff]
    push_neg
    exact ⟨by omega, hdropne⟩
  have hlinepre : (I.drop pos).take maxLength <+: I.drop pos :=
    take_pre _ _
  have hgooddrop : goodQP (I.drop pos) = true := goodQP_drop pos I hgood
  unfold wrapStep
  dsimp only
  split
  · -- a \r\n pair inside the line
    refine ⟨(take_pre _ _).trans hlinepre, ?_⟩
    rw [ne_eq, List.take_eq_nil_iff]
    push_neg
    exact ⟨by omega, hlinene⟩
  · split
    · exact ⟨hlinepre, hlinene⟩
    · split
      · -- a \n inside the window
        refine ⟨(take_pre _ _).trans hlinepre, ?_⟩
        rw [ne_eq, List.take_eq_nil_iff]
        push_neg
        exact ⟨by omega, hlinene⟩
      · obtain ⟨hp1, hn1⟩ := @stepLine1_spec I maxLength lineMargin I.length
          pos hgooddrop hmax _ rfl hlinene
        split
        · obtain ⟨hp2, hn2⟩ := stepTrim_spec hmax hn1
          exact ⟨(hp2.trans hp1).trans hlinepre, hn2⟩
        · exact ⟨hp1.trans hlinepre, hn1⟩

/-! ### The wrap loop terminates on encoder output and only inserts
markers -/

theorem renderChunks_nil : renderChunks [] = [] := rfl

theorem renderChunks_cons (p : List Nat × Bool) (cs : List (List Nat × Bool)) :
    renderChunks (p :: cs) =
      p.1 ++ ((if p.2 then marker else []) ++ renderChunks cs) := by
  unfold renderChunks
  rw [List.map_cons, List.flatten_cons, List.append_assoc]

theorem wrapChunksGo_spec {I : List Nat} {maxLength lineMargin : Nat}
    (hgood : goodQP I = true) (hmax : 4 ≤ maxLength) :
    ∀ fuel pos : Nat, I.length - pos ≤ fuel →
    ∃ cs, wrapChunksGo maxLength lineMargin I.length I fuel pos = some cs ∧
      Ins (I.drop pos) (renderChunks cs) := by
  intro fuel
  induction fuel with
  | zero =>
    intro pos hf
    refine ⟨[], ?_, ?_⟩
    · unfold wrapChunksGo
      rw [if_pos (by omega)]
    · rw [List.drop_eq_nil_of_le (by omega), renderChunks_nil]
      exact Ins.nil
  | succ n ih =>
    intro pos hf
    by_cases hpos : I.length ≤ pos
    · refine ⟨[], ?_, ?_⟩
      · unfold wrapChunksGo
        rw [if_pos hpos]
      · rw [List.drop_eq_nil_of_le hpos, renderChunks_nil]
        exact Ins.nil
    · push_neg at hpos
      obtain ⟨hpre, hne⟩ :=
        @wrapStep_spec I maxLength lineMargin pos hgood hmax hpos
      have hk : 1 ≤ (wrapStep maxLength lineMargin I.length pos I).1.length :=
        List.length_pos.mpr hne
      obtain ⟨cs, hcs, hins⟩ :=
        ih (pos + (wrapStep maxLength lineMargin I.length pos I).1.length)
          (by omega)
      refine ⟨wrapStep maxLength lineMargin I.length pos I :: cs, ?_, ?_⟩
      · unfold wrapChunksGo
        rw [if_neg (by omega)]
        dsimp only
        rw [hcs]
        rfl
      · have htake : (wrapStep maxLength lineMargin I.length pos I).1 =
            (I.drop pos).take
              (wrapStep maxLength lineMargin I.length pos I).1.length :=
          List.prefix_iff_eq_take.mp hpre
        have hdecomp : I.drop pos =
            (wrapStep maxLength lineMargin I.length pos I).1 ++
              I.drop (pos +
                (wrapStep maxLength lineMargin I.length pos I).1.length) := by
          conv_lhs => rw [← List.take_append_drop
            ((wrapStep maxLength lineMargin I.length pos I).1.length)
            (I.drop pos)]
          rw [← htake, List.drop_drop, Nat.add_comm]
        rw [hdecomp, renderChunks_cons]
        apply Ins.append_left
        rcases hmk : (wrapStep maxLength lineMargin I.length pos I).2
        · simpa using hins
        · exact Ins.brk hins

/-- On encoder output with any line length of at least 4, `wrap`
terminates and its result decodes back to the original bytes. -/
theorem wrap_encode_decode {B : List Nat} (hB : ∀ b ∈ B, b < 256) {L : Nat}
    (hL : 4 ≤ L) :
    ∃ W, wrap (encode B) L = some W ∧ decode W = B := by
  have hgood := goodQP_encode B hB
  have hL0 : ((L == 0) = false) := by
    rw [beq_eq_false_iff_ne]
    omega
  unfold wrap wrapChunks
  rw [hL0]
  simp only [Bool.false_eq_true, if_false]
  by_cases hshort : (encode B).length ≤ L
  · rw [if_pos hshort]
    refine ⟨renderChunks [(encode B, false)], rfl, ?_⟩
    have hr : renderChunks [(encode B, false)] = encode B := by
      rw [renderChunks_cons, renderChunks_nil]
      simp
    rw [hr]
    exact decode_encode B hB
  · rw [if_neg hshort]
    obtain ⟨cs, hcs, hins⟩ := wrapChunksGo_spec hgood hL
      ((encode B).length + 1) 0 (by omega)
    rw [hcs]
    refine ⟨renderChunks cs, rfl, ?_⟩
    rw [List.drop_zero] at hins
    rw [decode_of_ins hins hgood, scanQP_encode B hB]

/-! ### Multi-byte run splitting (claim C3) -/

theorem charAt_eq_getElem {s : List Nat} {i : Nat} (h : i < s.length) :
    charAt s i = some s[i] := by
  unfold charAt
  rw [List.head?_eq_head (by
    rw [ne_eq, List.drop_eq_nil_iff]
    omega)]
  rw [List.head_drop]

theorem charAt_lt {s : List Nat} {i : Nat} {x : Nat}
    (h : charAt s i = some x) : i < s.length := by
  by_contra hge
  push_neg at hge
  unfold charAt at h
  rw [List.drop_eq_nil_of_le hge] at h
  cases h

theorem charAt_mono {s t : List Nat} {i x : Nat} (hp : s <+: t)
    (h : charAt s i = some x) : charAt t i = some x := by
  have hi := charAt_lt h
  rw [charAt_eq_getElem hi] at h
  have hlen : s.length ≤ t.length := hp.length_le
  rw [charAt_eq_getElem (by omega)]
  obtain ⟨u, rfl⟩ := hp
  rw [List.getElem_append_left hi] at *
  exact h

theorem charAt_drop {s : List Nat} (k i : Nat) :
    charAt (s.drop k) i = charAt s (k + i) := by
  unfold charAt
  rw [List.drop_drop]

theorem startsEscape_triple {h1 h2 : Nat} (t : List Nat)
    (hh1 : isHexDigit h1 = true) (hh2 : isHexDigit h2 = true) :
    startsEscape (61 :: h1 :: h2 :: t) = some (16 * hexVal h1 + hexVal h2) := by
  unfold startsEscape
  rw [show charAt (61 :: h1 :: h2 :: t) 0 = some 61 from rfl,
    show charAt (61 :: h1 :: h2 :: t) 1 = some h1 from rfl,
    show charAt (61 :: h1 :: h2 :: t) 2 = some h2 from rfl]
  simp [hh1, hh2]

theorem startsEscape_head {b : List Nat} {v : Nat}
    (h : startsEscape b = some v) :
    charAt b 0 = some 61 ∧
    ∃ h1 h2, charAt b 1 = some h1 ∧ charAt b 2 = some h2 ∧
      isHexDigit h1 = true ∧ isHexDigit h2 = true ∧
      v = 16 * hexVal h1 + hexVal h2 := by
  unfold startsEscape at h
  rcases h0 : charAt b 0 with _ | e <;> rw [h0] at h
  · simp at h
  · rcases h1 : charAt b 1 with _ | x1 <;> rw [h1] at h
    · simp at h
    · rcases h2 : charAt b 2 with _ | x2 <;> rw [h2] at h
      · simp at h
      · dsimp only at h
        split at h
        · next hcond =>
          rw [Bool.and_eq_true, Bool.and_eq_true] at hcond
          obtain ⟨⟨he, hx1⟩, hx2⟩ := hcond
          replace he : e = 61 := by simpa using he
          subst he
          cases h
          exact ⟨rfl, x1, x2, rfl, rfl, hx1, hx2, rfl⟩
        · cases h

theorem startsEscape_mono {s t : List Nat} {v : Nat} (hp : s <+: t)
    (h : startsEscape s = some v) : startsEscape t = some v := by
  obtain ⟨h0, x1, x2, h1, h2, hx1, hx2, rfl⟩ := startsEscape_head h
  unfold startsEscape
  rw [charAt_mono hp h0, charAt_mono hp h1, charAt_mono hp h2]
  simp [hx1, hx2]

theorem endsWithEscape_decomp {l : List Nat} {v : Nat}
    (h : endsWithEscape l = some v) :
    3 ≤ l.length ∧
    ∃ h1 h2, charAt l (l.length - 3) = some 61 ∧
      charAt l (l.length - 2) = some h1 ∧ charAt l (l.length - 1) = some h2 ∧
      isHexDigit h1 = true ∧ isHexDigit h2 = true ∧
      v = 16 * hexVal h1 + hexVal h2 := by
  unfold endsWithEscape at h
  rcases h0 : charAt l (l.length - 3) with _ | e <;> rw [h0] at h
  · simp at h
  · rcases h1 : charAt l (l.length - 2) with _ | x1 <;> rw [h1] at h
    · simp at h
    · rcases h2 : charAt l (l.length - 1) with _ | x2 <;> rw [h2] at h
      · simp at h
      · dsimp only at h
        split at h
        · next hcond =>
          rw [Bool.and_eq_true, Bool.and_eq_true, Bool.and_eq_true] at hcond
          obtain ⟨⟨⟨hlen, he⟩, hx1⟩, hx2⟩ := hcond
          replace he : e = 61 := by simpa using he
          subst he
          cases h
          exact ⟨by simpa using hlen, x1, x2, rfl, rfl, rfl, hx1, hx2, rfl⟩
        · cases h

theorem endsWithEscape_dropLast3 {l : List Nat} {v : Nat}
    (h : endsWithEscape l = some v) :
    ∃ h1 h2, l.drop (l.length - 3) = [61, h1, h2] ∧
      isHexDigit h1 = true ∧ isHexDigit h2 = true ∧
      v = 16 * hexVal h1 + hexVal h2 := by
  obtain ⟨hlen, x1, x2, h0, h1, h2, hx1, hx2, rfl⟩ := endsWithEscape_decomp h
  refine ⟨x1, x2, ?_, hx1, hx2, rfl⟩
  have hdl : (l.drop (l.length - 3)).length = 3 := by
    rw [List.length_drop]
    omega
  rcases hd : l.drop (l.length - 3) with _ | ⟨a, _ | ⟨b, _ | ⟨c, t⟩⟩⟩
  · rw [hd] at hdl; simp at hdl
  · rw [hd] at hdl; simp at hdl
  · rw [hd] at hdl; simp at hdl
  · have ht : t = [] := by
      rw [hd] at hdl
      simp only [List.length_cons] at hdl
      exact List.length_eq_zero.mp (by omega)
    subst ht
    have ha : a = 61 := by
      have hx : charAt (l.drop (l.length - 3)) 0 = some 61 := by
        rw [charAt_drop]
        simpa using h0
      rw [hd] at hx
      exact Option.some.inj (by rw [← hx]; rfl)
    have hb : b = x1 := by
      have hx : charAt (l.drop (l.length - 3)) 1 = some x1 := by
        rw [charAt_drop, show l.length - 3 + 1 = l.length - 2 by omega]
        exact h1
      rw [hd] at hx
      exact Option.some.inj (by rw [← hx]; rfl)
    have hcx : c = x2 := by
      have hx : charAt (l.drop (l.length - 3)) 2 = some x2 := by
        rw [charAt_drop, show l.length - 3 + 2 = l.length - 1 by omega]
        exact h2
      rw [hd] at hx
      exact Option.some.inj (by rw [← hx]; rfl)
    rw [ha, hb, hcx]

theorem charAt_eq_getElemQ (s : List Nat) (i : Nat) : charAt s i = s[i]? := by
  unfold charAt
  rw [List.head?_eq_getElem?, List.getElem?_drop]
  simp

theorem charAt_append_left {a : List Nat} (b : List Nat) {i : Nat}
    (h : i < a.length) : charAt (a ++ b) i = charAt a i := by
  rw [charAt_eq_getElemQ, charAt_eq_getElemQ, List.getElem?_append_left h]

theorem getLast?_eq_charAt (l : List Nat) :
    l.getLast? = charAt l (l.length - 1) := by
  rw [List.getLast?_eq_getElem?, charAt_eq_getElemQ]

theorem charAt_take {l : List Nat} {t i : Nat} (h : i < t) :
    charAt (l.take t) i = charAt l i := by
  rw [charAt_eq_getElemQ, charAt_eq_getElemQ, List.getElem?_take, if_pos h]

theorem lastIdxOf_spec {p : Nat → Bool} {s : List Nat} {j : Nat}
    (h : lastIdxOf p s = some j) :
    j < s.length ∧ ∃ c, charAt s j = some c ∧ p c = true := by
  unfold lastIdxOf at h
  rw [Option.map_eq_some'] at h
  obtain ⟨i, hfind, hj⟩ := h
  rw [List.findIdx?_eq_some_iff_findIdx_eq] at hfind
  obtain ⟨hilt, hfi⟩ := hfind
  subst hfi
  subst hj
  have hp : p (s.reverse[List.findIdx p s.reverse]) = true :=
    List.findIdx_getElem
  rw [List.getElem_reverse] at hp
  rw [List.length_reverse] at hilt
  have hb : s.length - 1 - List.findIdx p s.reverse < s.length := by omega
  exact ⟨by omega, s[s.length - 1 - List.findIdx p s.reverse],
    charAt_eq_getElem hb, hp⟩

theorem substrNeg_decomp (s : List Nat) (n : Nat) :
    ∃ d, substrNeg s n = s.drop d ∧ d ≤ s.length := by
  unfold substrNeg
  split
  · exact ⟨0, by simp⟩
  · exact ⟨s.length - n, rfl, by omega⟩

theorem goodQP_adj : ∀ (s : List Nat), goodQP s = true → ∀ k : Nat,
    charAt s k = some 61 → charAt s (k + 1) ≠ some 61 := by
  intro s
  induction s with
  | nil => intro _ k hk; rw [charAt_eq_getElemQ] at hk; simp at hk
  | cons c r ih =>
    intro h k
    rcases k with _ | k
    · intro hk
      have hc : c = 61 := by
        rw [show charAt (c :: r) 0 = some c from rfl] at hk
        exact Option.some.inj hk
      subst hc
      rw [goodQP_cons, Bool.and_eq_true, if_pos (by simp)] at h
      rcases r with _ | ⟨h1, _ | ⟨h2, r2⟩⟩
      · simp at h
      · simp at h
      · have hh1 : isHexDigit h1 = true := by
          have := h.1
          rw [Bool.and_eq_true] at this
          exact this.1
        rw [show charAt (61 :: h1 :: h2 :: r2) (0 + 1) = some h1 from rfl]
        intro he
        have := Option.some.inj he
        exact (isHexDigit_ne hh1).1 this
    · rw [show charAt (c :: r) (k + 1) = charAt r k from rfl,
        show charAt (c :: r) (k + 1 + 1) = charAt r (k + 1) from rfl]
      exact ih (goodQP_tail h) k

theorem isPunct_props {c : Nat} (h : isPunct c = true) :
    isHexDigit c = false ∧ c ≠ 61 := by
  have hc : c = 32 ∨ c = 9 ∨ c = 46 ∨ c = 44 ∨ c = 33 ∨ c = 63 := by
    simp only [isPunct, Bool.or_eq_true, beq_iff_eq] at h
    tauto
  constructor
  · simp only [isHexDigit, Bool.or_eq_false_iff, Bool.and_eq_false_iff,
      decide_eq_false_iff_not, not_le]
    omega
  · omega

theorem backoffGo_succ (len pos n : Nat) (l : List Nat) :
    backoffGo len pos (n + 1) l =
      if 3 < l.length && l.length < len - pos && !isFullEscapes l then
        match endsWithEscape l with
        | some code =>
          if code < 128 then l
          else
            if 192 ≤ code then l.take (l.length - 3)
            else backoffGo len pos n (l.take (l.length - 3))
        | none => l
      else l := rfl

/-- Complete characterization of the UTF-8 backoff loop: the result is
the line with a (possibly empty) sequence of trailing escapes removed,
and it stops only with a safe line ending, at a guard failure, or right
after removing a lead-byte escape. -/
theorem backoff_full (len pos : Nat) : ∀ fuel l, l.length ≤ fuel →
    ((backoffGo len pos fuel l = l) ∨
      ∃ s, l = backoffGo len pos fuel l ++ s ∧ charAt s 0 = some 61) ∧
    (endsWithEscape (backoffGo len pos fuel l) = none ∨
     (∃ v, endsWithEscape (backoffGo len pos fuel l) = some v ∧ v < 128) ∨
     (backoffGo len pos fuel l).length ≤ 3 ∨
     len - pos ≤ (backoffGo len pos fuel l).length ∨
     isFullEscapes (backoffGo len pos fuel l) = true ∨
     (∃ w, startsEscape (l.drop (backoffGo len pos fuel l).length) = some w ∧
       192 ≤ w)) := by
  intro fuel
  induction fuel with
  | zero =>
    intro l hl
    have : l = [] := List.length_eq_zero.mp (by omega)
    subst this
    exact ⟨Or.inl rfl, Or.inr (Or.inr (Or.inl (by simp [backoffGo])))⟩
  | succ n ih =>
    intro l hl
    by_cases hguard :
        (3 < l.length && l.length < len - pos && !isFullEscapes l) = true
    · have hg := hguard
      rw [Bool.and_eq_true, Bool.and_eq_true] at hg
      have hg1 : 3 < l.length := by simpa using hg.1.1
      have hg2 : l.length < len - pos := by simpa using hg.1.2
      rcases hE : endsWithEscape l with _ | code
      · have hr : backoffGo len pos (n + 1) l = l := by
          rw [backoffGo_succ, if_pos hguard, hE]
        rw [hr]
        exact ⟨Or.inl rfl, Or.inl hE⟩
      · by_cases hlt : code < 128
        · have hr : backoffGo len pos (n + 1) l = l := by
            rw [backoffGo_succ, if_pos hguard, hE]
            show (if code < 128 then l
              else
                if 192 ≤ code then l.take (l.length - 3)
                else backoffGo len pos n (l.take (l.length - 3))) = l
            rw [if_pos hlt]
          rw [hr]
          exact ⟨Or.inl rfl, Or.inr (Or.inl ⟨code, hE, hlt⟩)⟩
        · obtain ⟨h1, h2, hdrop3, hx1, hx2, hval⟩ := endsWithEscape_dropLast3 hE
          have hlen3 : (l.take (l.length - 3)).length = l.length - 3 := by
            rw [List.length_take]
            omega
          have hsplit : l = l.take (l.length - 3) ++ l.drop (l.length - 3) :=
            (List.take_append_drop _ l).symm
          by_cases h192 : 192 ≤ code
          · have hr : backoffGo len pos (n + 1) l = l.take (l.length - 3) := by
              rw [backoffGo_succ, if_pos hguard, hE]
              show (if code < 128 then l
                else
                  if 192 ≤ code then l.take (l.length - 3)
                  else backoffGo len pos n (l.take (l.length - 3))) =
                l.take (l.length - 3)
              rw [if_neg hlt, if_pos h192]
            rw [hr]
            constructor
            · refine Or.inr ⟨l.drop (l.length - 3), hsplit, ?_⟩
              rw [hdrop3]
              rfl
            · refine Or.inr (Or.inr (Or.inr (Or.inr (Or.inr ⟨code, ?_, h192⟩))))
              rw [hlen3, hdrop3, hval]
              exact startsEscape_triple [] hx1 hx2
          · have hr : backoffGo len pos (n + 1) l =
                backoffGo len pos n (l.take (l.length - 3)) := by
              rw [backoffGo_succ, if_pos hguard, hE]
              show (if code < 128 then l
                else
                  if 192 ≤ code then l.take (l.length - 3)
                  else backoffGo len pos n (l.take (l.length - 3))) =
                backoffGo len pos n (l.take (l.length - 3))
              rw [if_neg hlt, if_neg h192]
            obtain ⟨ihdec, ihsafe⟩ := ih (l.take (l.length - 3)) (by omega)
            have hrle : (backoffGo len pos n (l.take (l.length - 3))).length ≤
                l.length - 3 := by
              have hsp := (backoffGo_spec len pos n (l.take (l.length - 3))).1
              have hle := hsp.length_le
              omega
            rw [hr]
            constructor
            · rcases ihdec with heq | ⟨s, hs, hs61⟩
              · refine Or.inr ⟨l.drop (l.length - 3), ?_, ?_⟩
                · rw [heq]; exact hsplit
                · rw [hdrop3]; rfl
              · refine Or.inr ⟨s ++ l.drop (l.length - 3), ?_, ?_⟩
                · conv_lhs => rw [hsplit]
                  rw [← List.append_assoc, ← hs]
                · rw [charAt_append_left _ (charAt_lt hs61)]
                  exact hs61
            · rcases ihsafe with h | h | h | h | h | ⟨w, hw, hw192⟩
              · exact Or.inl h
              · right; left; exact h
              · right; right; left; exact h
              · right; right; right; left; exact h
              · right; right; right; right; left; exact h
              · refine Or.inr (Or.inr (Or.inr (Or.inr (Or.inr ⟨w, ?_, hw192⟩))))
                have hgen : ∀ k, k ≤ l.length - 3 → l.drop k =
                    (l.take (l.length - 3)).drop k ++ l.drop (l.length - 3) := by
                  intro k hk
                  conv_lhs => rw [hsplit]
                  rw [List.drop_append_of_le_length (by rw [hlen3]; omega)]
                rw [hgen _ hrle]
                exact startsEscape_mono (List.prefix_append _ _) hw
    · have hr : backoffGo len pos (n + 1) l = l := by
        rw [backoffGo_succ, if_neg hguard]
      rw [hr]
      refine ⟨Or.inl rfl, ?_⟩
      have hcases : l.length ≤ 3 ∨ len - pos ≤ l.length ∨
          isFullEscapes l = true := by
        by_contra hcon
        push_neg at hcon
        obtain ⟨ha, hb, hc⟩ := hcon
        apply hguard
        rw [Bool.and_eq_true, Bool.and_eq_true]
        refine ⟨⟨by simp; omega, by simp; omega⟩, ?_⟩
        have hc2 : isFullEscapes l = false := by simpa using hc
        simp [hc2]
      rcases hcases with h | h | h
      · right; right; left; exact h
      · right; right; right; left; exact h
      · right; right; right; right; left; exact h

theorem splitPair_false_left_none {a b : List Nat}
    (h : endsWithEscape a = none) : splitPair a b = false := by
  unfold splitPair
  rcases hb : startsEscape b with _ | w <;> rw [h] <;> rfl

theorem splitPair_false_left_lt {a b : List Nat} {v : Nat}
    (h : endsWithEscape a = some v) (hv : v < 128) : splitPair a b = false := by
  unfold splitPair
  rcases hb : startsEscape b with _ | w <;> rw [h]
  show (decide (128 ≤ v) && decide (128 ≤ w) && decide (w < 192)) = false
  simp only [Bool.and_eq_false_iff, decide_eq_false_iff_not]
  omega

theorem splitPair_false_right_none {a b : List Nat}
    (h : startsEscape b = none) : splitPair a b = false := by
  unfold splitPair
  rcases ha : endsWithEscape a with _ | v <;> rw [h] <;> rfl

theorem splitPair_false_right_lt {a b : List Nat} {w : Nat}
    (h : startsEscape b = some w) (hw : w < 128) : splitPair a b = false := by
  unfold splitPair
  rcases ha : endsWithEscape a with _ | v <;> rw [h]
  show (decide (128 ≤ v) && decide (128 ≤ w) && decide (w < 192)) = false
  simp only [Bool.and_eq_false_iff, decide_eq_false_iff_not]
  omega

theorem splitPair_false_right_ge {a b : List Nat} {w : Nat}
    (h : startsEscape b = some w) (hw : 192 ≤ w) : splitPair a b = false := by
  unfold splitPair
  rcases ha : endsWithEscape a with _ | v <;> rw [h]
  show (decide (128 ≤ v) && decide (128 ≤ w) && decide (w < 192)) = false
  simp only [Bool.and_eq_false_iff, decide_eq_false_iff_not]
  omega

theorem eq01Match_one {line : List Nat} (h : eq01Match line = some 1) :
    line.getLast? = some 61 ∨ (2 ≤ line.length ∧
      charAt line (line.length - 2) = some 61) := by
  unfold eq01Match at h
  split at h
  · next hc => exact Or.inl (by simpa using hc)
  · split at h
    · split at h
      · cases h
      · cases h
    · cases h

theorem eq01Match_two {line : List Nat} (h : eq01Match line = some 2) :
    2 ≤ line.length ∧ charAt line (line.length - 2) = some 61 := by
  unfold eq01Match at h
  split at h
  · cases h
  · rcases h2 : charAt line (line.length - 2) with _ | e <;> rw [h2] at h
    · simp at h
    · rcases hl : line.getLast? with _ | x <;> rw [hl] at h
      · simp at h
      · dsimp only at h
        split at h
        · next hcond =>
          rw [Bool.and_eq_true, Bool.and_eq_true] at hcond
          refine ⟨by simpa using hcond.1.1, ?_⟩
          have he : e = 61 := by simpa using hcond.1.2
          rw [he]
        · cases h

theorem prefix_drop {s t : List Nat} (h : s <+: t) (k : Nat) :
    s.drop k <+: t.drop k := by
  rw [List.prefix_iff_eq_take] at h
  rw [h, List.drop_take]
  exact take_pre _ _

theorem endsWithEscape_of_dropLast3 {l : List Nat} {h1 h2 : Nat}
    (hlen : 3 ≤ l.length) (hd : l.drop (l.length - 3) = [61, h1, h2])
    (hx1 : isHexDigit h1 = true) (hx2 : isHexDigit h2 = true) :
    endsWithEscape l = some (16 * hexVal h1 + hexVal h2) := by
  have c0 : charAt l (l.length - 3) = some 61 := by
    rw [show charAt l (l.length - 3) = charAt (l.drop (l.length - 3)) 0 by
      rw [charAt_drop, Nat.add_zero], hd]
    rfl
  have c1 : charAt l (l.length - 2) = some h1 := by
    rw [show charAt l (l.length - 2) = charAt (l.drop (l.length - 3)) 1 by
      rw [charAt_drop]
      congr 1
      omega, hd]
    rfl
  have c2 : charAt l (l.length - 1) = some h2 := by
    rw [show charAt l (l.length - 1) = charAt (l.drop (l.length - 3)) 2 by
      rw [charAt_drop]
      congr 1
      omega, hd]
    rfl
  unfold endsWithEscape
  rw [c0, c1, c2]
  dsimp only
  rw [if_pos]
  rw [Bool.and_eq_true, Bool.and_eq_true, Bool.and_eq_true]
  exact ⟨⟨⟨by simpa using hlen, by simp⟩, hx1⟩, hx2⟩

theorem allEscapes_triple_end : ∀ l : List Nat, allEscapes l = true →
    l = [] ∨ ∃ h1 h2, l.drop (l.length - 3) = [61, h1, h2] ∧
      isHexDigit h1 = true ∧ isHexDigit h2 = true ∧ 3 ≤ l.length := by
  intro l
  induction l using allEscapes.induct with
  | case1 => intro _; exact Or.inl rfl
  | case2 h1 h2 r ih =>
    intro h
    simp only [allEscapes, Bool.and_eq_true] at h
    obtain ⟨⟨hx1, hx2⟩, hall⟩ := h
    rcases ih hall with hnil | ⟨a, b, hd, ha, hb, hlen⟩
    · subst hnil
      exact Or.inr ⟨h1, h2, by simp, hx1, hx2, by simp⟩
    · refine Or.inr ⟨a, b, ?_, ha, hb, by simp only [List.length_cons]; omega⟩
      have harith : (61 :: h1 :: h2 :: r).length - 3 = (r.length - 3) + 3 := by
        simp only [List.length_cons]
        omega
      rw [harith, show ((61 : Nat) :: h1 :: h2 :: r).drop ((r.length - 3) + 3) =
        r.drop (r.length - 3) from rfl]
      exact hd
  | case3 t hnil htriple =>
    intro h
    exfalso
    rw [allEscapes.eq_def] at h
    split at h
    · exact hnil rfl
    · next x1 x2 xr => exact htriple x1 x2 xr rfl
    · exact Bool.false_ne_true h

theorem fullEscapes_endsWith {l : List Nat} (h : isFullEscapes l = true) :
    ∃ v, endsWithEscape l = some v := by
  unfold isFullEscapes at h
  rw [Bool.and_eq_true, Bool.and_eq_true] at h
  obtain ⟨⟨hall, hne⟩, _⟩ := h
  rcases allEscapes_triple_end l hall with hnil | ⟨h1, h2, hd, hx1, hx2, hlen⟩
  · subst hnil; simp at hne
  · exact ⟨_, endsWithEscape_of_dropLast3 hlen hd hx1 hx2⟩

theorem allEscapes_take_sub3 : ∀ l : List Nat, allEscapes l = true →
    allEscapes (l.take (l.length - 3)) = true := by
  intro l
  induction l using allEscapes.induct with
  | case1 => intro _; rfl
  | case2 h1 h2 r ih =>
    intro h
    simp only [allEscapes, Bool.and_eq_true] at h
    obtain ⟨⟨hx1, hx2⟩, hall⟩ := h
    rcases hr : r with _ | ⟨c, r2⟩
    · rw [show ((61 : Nat) :: h1 :: h2 :: []).length - 3 = 0 by simp]
      rfl
    · rw [← hr]
      have hrlen : 3 ≤ r.length := by
        rcases allEscapes_triple_end r hall with hnil | ⟨_, _, _, _, _, hlen⟩
        · rw [hr] at hnil; cases hnil
        · exact hlen
      obtain ⟨n, hn⟩ := Nat.exists_eq_add_of_le hrlen
      have harith : (61 :: h1 :: h2 :: r).length - 3 = n + 3 := by
        simp only [List.length_cons]
        omega
      rw [harith, show ((61 : Nat) :: h1 :: h2 :: r).take (n + 3) =
        61 :: h1 :: h2 :: r.take n from rfl]
      simp only [allEscapes, Bool.and_eq_true]
      refine ⟨⟨hx1, hx2⟩, ?_⟩
      rw [show r.take n = r.take (r.length - 3) by congr 1; omega]
      exact ih hall
  | case3 t hnil htriple =>
    intro h
    exfalso
    rw [allEscapes.eq_def] at h
    split at h
    · exact hnil rfl
    · next x1 x2 xr => exact htriple x1 x2 xr rfl
    · exact Bool.false_ne_true h

theorem startsEscape_nil : startsEscape [] = none := rfl

theorem startsEscape_none_head {s : List Nat}
    (h : charAt s 0 ≠ some 61) : startsEscape s = none := by
  unfold startsEscape
  rcases h0 : charAt s 0 with _ | e
  · rcases h1 : charAt s 1 with _ | x1 <;>
      rcases h2 : charAt s 2 with _ | x2 <;> rfl
  · rcases h1 : charAt s 1 with _ | x1
    · rcases h2 : charAt s 2 with _ | x2 <;> rfl
    · rcases h2 : charAt s 2 with _ | x2
      · rfl
      · show (if (e == 61 && isHexDigit x1 && isHexDigit x2) = true then
            some (16 * hexVal x1 + hexVal x2) else none) = none
        rw [if_neg]
        intro hc
        rw [Bool.and_eq_true, Bool.and_eq_true] at hc
        have he : e = 61 := by simpa using hc.1.1
        exact h (by rw [h0, he])

theorem getLast_eq_charAt (s : List Nat) :
    s.getLast? = charAt s (s.length - 1) := by
  rw [charAt_eq_getElemQ, List.getLast?_eq_getElem?]

theorem isPunct_cases {c : Nat} (h : isPunct c = true) :
    isHexDigit c = false ∧ c ≠ 61 := by
  unfold isPunct at h
  simp only [Bool.or_eq_true, beq_iff_eq] at h
  unfold isHexDigit
  constructor
  · simp only [Bool.or_eq_false_iff, Bool.and_eq_false_iff,
      decide_eq_false_iff_not]
    omega
  · omega

theorem endsWithEscape_none_of_last {l : List Nat} {c : Nat}
    (hc : charAt l (l.length - 1) = some c) (hh : isHexDigit c = false) :
    endsWithEscape l = none := by
  rcases he : endsWithEscape l with _ | v
  · rfl
  · obtain ⟨_, x1, x2, _, _, h2, _, hx2, _⟩ := endsWithEscape_decomp he
    rw [hc] at h2
    cases Option.some.inj h2
    rw [hx2] at hh
    cases hh

theorem stepTrim_id {maxLength : Nat} {line1 : List Nat}
    (h : line1.length ≠ maxLength) : stepTrim maxLength line1 = line1 := by
  unfold stepTrim
  rw [if_neg, if_neg]
  · simpa using h
  · simp only [Bool.and_eq_true]
    intro hc
    exact h (by simpa using hc.1)

theorem stepTrim_esc {maxLength : Nat} {line1 : List Nat} {v : Nat}
    (h : line1.length = maxLength) (he : endsWithEscape line1 = some v) :
    stepTrim maxLength line1 = line1.take (line1.length - 3) := by
  unfold stepTrim
  rw [if_pos]
  simp [h, he]

theorem stepTrim_noesc {maxLength : Nat} {line1 : List Nat}
    (h : line1.length = maxLength) (he : endsWithEscape line1 = none) :
    stepTrim maxLength line1 = line1.take (line1.length - 1) := by
  unfold stepTrim
  rw [if_neg, if_pos]
  · simpa using h
  · simp [he]

theorem drop_add (I : List Nat) (pos k : Nat) :
    I.drop (pos + k) = (I.drop pos).drop k := by
  rw [List.drop_drop, Nat.add_comm]

theorem isFullEscapes_all {l : List Nat} (h : isFullEscapes l = true) :
    allEscapes l = true := by
  unfold isFullEscapes at h
  rw [Bool.and_eq_true, Bool.and_eq_true] at h
  exact h.1.1

theorem eq01Match_none_last {line : List Nat}
    (h : eq01Match line = none) : ¬line.getLast? = some 61 := by
  intro hc
  unfold eq01Match at h
  rw [if_pos (by simp [hc])] at h
  cases h

/-- The space/punctuation truncation branch of the wrap loop never leaves
a chunk that separates a lead escape from its continuation: the chunk
ends at a punctuation character (or, when the final trim cuts one more
character, the text resumes at that punctuation character). -/
theorem punct_safe {I L line1 : List Nat} {maxLength lineMargin pos j : Nat}
    (hmax : 4 ≤ maxLength) (hL : L = (I.drop pos).take maxLength)
    (hj : lastIdxOf isPunct (substrNeg L lineMargin) = some j)
    (hline1 : line1 =
      L.take (L.length - ((substrNeg L lineMargin).length - j) + 1)) :
    splitPair (stepTrim maxLength line1)
      (I.drop (pos + (stepTrim maxLength line1).length)) = false ∨
    allEscapes (stepTrim maxLength line1) = true ∨
    (stepTrim maxLength line1).length ≤ 3 := by
  obtain ⟨d, hWd, hdle⟩ := substrNeg_decomp L lineMargin
  obtain ⟨hjlt, c, hcW, hcp⟩ := lastIdxOf_spec hj
  obtain ⟨hchex, hc61⟩ := isPunct_cases hcp
  rw [hWd] at hcW hjlt hline1
  rw [List.length_drop] at hjlt hline1
  have hidx : L.length - (L.length - d - j) + 1 = d + j + 1 := by omega
  rw [hidx] at hline1
  have hlen1' : line1.length = d + j + 1 := by
    rw [hline1, List.length_take]
    exact Nat.min_eq_left (by omega)
  have hlast : charAt line1 (line1.length - 1) = some c := by
    rw [hlen1', show d + j + 1 - 1 = d + j from by omega, hline1,
      charAt_take (by omega), ← charAt_drop]
    exact hcW
  have hnoesc : endsWithEscape line1 = none :=
    endsWithEscape_none_of_last hlast hchex
  have hLle : L.length ≤ maxLength := by
    rw [hL, List.length_take]
    exact min_le_left _ _
  by_cases hfull : line1.length = maxLength
  · rw [stepTrim_noesc hfull hnoesc]
    left
    apply splitPair_false_right_none
    apply startsEscape_none_head
    have hTlen : (line1.take (line1.length - 1)).length = maxLength - 1 := by
      rw [List.length_take, Nat.min_eq_left (by omega)]
      omega
    rw [hTlen, drop_add, charAt_drop, Nat.add_zero]
    have hch : charAt (I.drop pos) (maxLength - 1) = some c := by
      rw [show charAt (I.drop pos) (maxLength - 1) =
          charAt L (maxLength - 1) from by
        rw [hL]
        exact (charAt_take (by omega)).symm]
      rw [show maxLength - 1 = d + j from by omega, ← charAt_drop]
      exact hcW
    rw [hch]
    intro hcc
    exact hc61 (Option.some.inj hcc)
  · rw [stepTrim_id hfull]
    exact Or.inl (splitPair_false_left_none hnoesc)

/-- The escape-handling branch of the wrap loop (incomplete-escape strip
plus UTF-8 backoff) leaves a chunk that, except when the backoff gives up
on an all-escape line or one of at most 3 characters, never separates a
lead escape from its continuation escapes. -/
theorem esc_safe {I L : List Nat} {maxLength pos : Nat}
    (hmax : 4 ≤ maxLength) (hL : L = (I.drop pos).take maxLength)
    (hlen1 : pos + (stepEsc I.length pos L).length < I.length) :
    splitPair (stepTrim maxLength (stepEsc I.length pos L))
      (I.drop (pos + (stepTrim maxLength (stepEsc I.length pos L)).length))
        = false ∨
    allEscapes (stepTrim maxLength (stepEsc I.length pos L)) = true ∨
    (stepTrim maxLength (stepEsc I.length pos L)).length ≤ 3 := by
  have hLle : L.length ≤ maxLength := by
    rw [hL, List.length_take]
    exact min_le_left _ _
  have hLI : L <+: I.drop pos := by
    rw [hL]
    exact take_pre _ _
  by_cases hE : endsEq012 L = true
  · rcases hm : eq01Match L with _ | m
    · -- no `=`/`=h` strip: the backoff runs on the whole line
      have hsome : (endsWithEscape L).isSome = true := by
        unfold endsEq012 at hE
        rw [hm] at hE
        simpa using hE
      have hstep : stepEsc I.length pos L =
          backoffGo I.length pos L.length L := by
        unfold stepEsc utf8Backoff
        rw [if_pos hE, hm]
      obtain ⟨hbpre, -⟩ := backoffGo_spec I.length pos L.length L
      obtain ⟨-, hD⟩ := backoff_full I.length pos L.length L (le_refl _)
      set b := backoffGo I.length pos L.length L with hb
      rw [hstep] at hlen1 ⊢
      by_cases hfull : b.length = maxLength
      · have hbL : b = L := hbpre.eq_of_length (by
          have := hbpre.length_le
          omega)
        rcases hbe : endsWithEscape b with _ | v
        · rw [hbL] at hbe
          rw [hbe] at hsome
          simp at hsome
        · rw [stepTrim_esc hfull hbe]
          rcases hD with hD | ⟨v2, hv2, hvlt⟩ | hD | hD | hD |
              ⟨w, hw, hw192⟩
          · rw [hD] at hbe
            cases hbe
          · obtain ⟨x1, x2, hdrop, hx1, hx2, hveq⟩ :=
              endsWithEscape_dropLast3 hv2
            left
            refine splitPair_false_right_lt ?_ hvlt
            have hTlen : (b.take (b.length - 3)).length = b.length - 3 := by
              rw [List.length_take]
              exact Nat.min_eq_left (by omega)
            rw [hTlen, drop_add]
            have hsv : startsEscape (b.drop (b.length - 3)) = some v2 := by
              rw [hdrop, startsEscape_triple [] hx1 hx2, hveq]
            exact startsEscape_mono
              (prefix_drop (hbL ▸ hLI) (b.length - 3)) hsv
          · exact absurd hD (by omega)
          · exact absurd hD (by omega)
          · exact Or.inr (Or.inl (allEscapes_take_sub3 b (isFullEscapes_all hD)))
          · rw [show b.length = L.length from by
                have := hbpre.length_le
                omega, List.drop_length] at hw
            simp [startsEscape_nil] at hw
      · rw [stepTrim_id hfull]
        rcases hD with hD | ⟨v, hv, hvlt⟩ | hD | hD | hD | ⟨w, hw, hw192⟩
        · exact Or.inl (splitPair_false_left_none hD)
        · exact Or.inl (splitPair_false_left_lt hv hvlt)
        · exact Or.inr (Or.inr hD)
        · exact absurd hD (by omega)
        · exact Or.inr (Or.inl (isFullEscapes_all hD))
        · left
          refine splitPair_false_right_ge ?_ hw192
          rw [drop_add]
          exact startsEscape_mono (prefix_drop hLI b.length) hw
    · -- an incomplete `=`/`=h` escape is pushed to the next line first
      obtain ⟨hm1, hm2⟩ := eq01Match_le hm
      have hstep : stepEsc I.length pos L =
          backoffGo I.length pos (L.take (L.length - m)).length
            (L.take (L.length - m)) := by
        unfold stepEsc utf8Backoff
        rw [if_pos hE, hm]
      set l := L.take (L.length - m) with hl
      have hllen : l.length = L.length - m := by
        rw [hl, List.length_take]
        exact Nat.min_eq_left (by omega)
      obtain ⟨hbpre, -⟩ := backoffGo_spec I.length pos l.length l
      obtain ⟨-, hD⟩ := backoff_full I.length pos l.length l (le_refl _)
      set b := backoffGo I.length pos l.length l with hb
      rw [hstep] at hlen1 ⊢
      have hfull : ¬b.length = maxLength := by
        have := hbpre.length_le
        omega
      rw [stepTrim_id hfull]
      have hlI : l <+: I.drop pos := by
        rw [hl]
        exact (take_pre _ _).trans hLI
      rcases hD with hD | ⟨v, hv, hvlt⟩ | hD | hD | hD | ⟨w, hw, hw192⟩
      · exact Or.inl (splitPair_false_left_none hD)
      · exact Or.inl (splitPair_false_left_lt hv hvlt)
      · exact Or.inr (Or.inr hD)
      · exact absurd hD (by omega)
      · exact Or.inr (Or.inl (isFullEscapes_all hD))
      · left
        refine splitPair_false_right_ge ?_ hw192
        rw [drop_add]
        exact startsEscape_mono (prefix_drop hlI b.length) hw
  · -- the line does not end in `=`, `=h` or `=hh`: kept as is
    have hEf : endsEq012 L = false := by simpa using hE
    have hm0 : eq01Match L = none := by
      rcases hx : eq01Match L with _ | m
      · rfl
      · exfalso
        unfold endsEq012 at hEf
        rw [hx] at hEf
        simp at hEf
    have hw0 : endsWithEscape L = none := by
      rcases hx : endsWithEscape L with _ | v
      · rfl
      · exfalso
        unfold endsEq012 at hEf
        rw [hx] at hEf
        simp at hEf
    have hstep : stepEsc I.length pos L = L := by
      unfold stepEsc
      rw [if_neg (by simp [hEf])]
    rw [hstep] at hlen1 ⊢
    by_cases hfull : L.length = maxLength
    · rw [stepTrim_noesc hfull hw0]
      left
      apply splitPair_false_right_none
      apply startsEscape_none_head
      have hTlen : (L.take (L.length - 1)).length = maxLength - 1 := by
        rw [List.length_take, Nat.min_eq_left (by omega)]
        omega
      rw [hTlen, drop_add, charAt_drop, Nat.add_zero]
      have hch : charAt (I.drop pos) (maxLength - 1) = charAt L (L.length - 1) := by
        rw [hfull, hL]
        exact (charAt_take (by omega)).symm
      rw [hch, ← getLast_eq_charAt]
      exact eq01Match_none_last hm0
    · rw [stepTrim_id hfull]
      exact Or.inl (splitPair_false_left_none hw0)

/-- Any iteration of the wrap loop that appends a soft break leaves a
chunk that does not split a multi-byte escape run, unless the chunk is
entirely `=XX` escapes or at most 3 characters long. -/
theorem wrapStep_safe {I : List Nat} {maxLength lineMargin pos : Nat}
    (hmax : 4 ≤ maxLength)
    (hbrk : (wrapStep maxLength lineMargin I.length pos I).2 = true) :
    splitPair (wrapStep maxLength lineMargin I.length pos I).1
      (I.drop (pos + (wrapStep maxLength lineMargin I.length pos I).1.length))
        = false ∨
    allEscapes (wrapStep maxLength lineMargin I.length pos I).1 = true ∨
    (wrapStep maxLength lineMargin I.length pos I).1.length ≤ 3 := by
  obtain ⟨hw, hlen1⟩ : wrapStep maxLength lineMargin I.length pos I =
      (stepTrim maxLength (stepLine1 maxLength lineMargin I.length pos
        ((I.drop pos).take maxLength)), true) ∧
      pos + (stepLine1 maxLength lineMargin I.length pos
        ((I.drop pos).take maxLength)).length < I.length := by
    simp only [wrapStep] at hbrk ⊢
    rcases hf : findCRLF ((I.drop pos).take maxLength) with _ | idx
    · rw [hf] at hbrk
      dsimp only at hbrk ⊢
      cases hlast : (((I.drop pos).take maxLength).getLast? == some 10)
      · rw [hlast] at hbrk
        rw [if_neg (by simp)] at hbrk ⊢
        rcases hnl : lfTailMatch
            (substrNeg ((I.drop pos).take maxLength) lineMargin) with _ | j
        · rw [hnl] at hbrk
          dsimp only at hbrk ⊢
          split at hbrk
          · next hcond =>
            constructor
            · rw [if_pos hcond]
            · have h1 := hcond
              rw [Bool.and_eq_true] at h1
              exact of_decide_eq_true h1.1
          · simp at hbrk
        · rw [hnl] at hbrk
          simp at hbrk
      · rw [hlast] at hbrk
        rw [if_pos rfl] at hbrk
        simp at hbrk
    · rw [hf] at hbrk
      simp at hbrk
  rw [hw]
  dsimp only
  rw [hw] at hbrk
  by_cases hP : maxLength - lineMargin < ((I.drop pos).take maxLength).length
  · rcases hj : lastIdxOf isPunct
        (substrNeg ((I.drop pos).take maxLength) lineMargin) with _ | j
    · have hsl : stepLine1 maxLength lineMargin I.length pos
          ((I.drop pos).take maxLength) =
          stepEsc I.length pos ((I.drop pos).take maxLength) := by
        unfold stepLine1
        rw [if_pos hP, hj]
      rw [hsl] at hlen1 ⊢
      exact esc_safe hmax rfl hlen1
    · have hsl : stepLine1 maxLength lineMargin I.length pos
          ((I.drop pos).take maxLength) =
          ((I.drop pos).take maxLength).take
            (((I.drop pos).take maxLength).length -
              ((substrNeg ((I.drop pos).take maxLength) lineMargin).length - j)
                + 1) := by
        unfold stepLine1
        rw [if_pos hP, hj]
      rw [hsl]
      exact punct_safe hmax rfl hj rfl
  · have hsl : stepLine1 maxLength lineMargin I.length pos
        ((I.drop pos).take maxLength) =
        stepEsc I.length pos ((I.drop pos).take maxLength) := by
      unfold stepLine1
      rw [if_neg hP]
    rw [hsl] at hlen1 ⊢
    exact esc_safe hmax rfl hlen1

theorem restContent_cons (p : List Nat × Bool)
    (rest : List (List Nat × Bool)) :
    restContent (p :: rest) = p.1 ++ restContent rest := by
  simp [restContent]

theorem safeBreaks_cons (p : List Nat × Bool)
    (rest : List (List Nat × Bool)) :
    safeBreaks (p :: rest) =
      ((!p.2 || !splitPair p.1 (restContent rest) || allEscapes p.1 ||
        decide (p.1.length ≤ 3)) && safeBreaks rest) := by
  rcases p with ⟨c, brk⟩
  rfl

theorem prefix_append_drop {s t : List Nat} (h : s <+: t) :
    s ++ t.drop s.length = t := by
  obtain ⟨u, rfl⟩ := h
  rw [List.drop_left]

/-- The chunks produced by the wrap loop from position `pos` carry
exactly the input from `pos` on. -/
theorem wrapChunksGo_content {I : List Nat} {maxLength lineMargin : Nat}
    (hgood : goodQP I = true) (hmax : 4 ≤ maxLength) :
    ∀ (fuel pos : Nat) (cs : List (List Nat × Bool)),
    wrapChunksGo maxLength lineMargin I.length I fuel pos = some cs →
    restContent cs = I.drop pos := by
  intro fuel
  induction fuel with
  | zero =>
    intro pos cs h
    unfold wrapChunksGo at h
    split at h
    · next hle =>
      cases h
      rw [List.drop_eq_nil_of_le hle]
      rfl
    · cases h
  | succ n ih =>
    intro pos cs h
    unfold wrapChunksGo at h
    split at h
    · next hle =>
      cases h
      rw [List.drop_eq_nil_of_le hle]
      rfl
    · next hlt =>
      dsimp only at h
      rw [Option.map_eq_some'] at h
      obtain ⟨cs2, htail, hcs⟩ := h
      subst hcs
      have hc := ih _ cs2 htail
      obtain ⟨hpre, -⟩ := wrapStep_spec hgood hmax (show pos < I.length by omega)
      rw [restContent_cons, hc, drop_add]
      exact prefix_append_drop hpre

/-- Every chunk list produced by the wrap loop has only safe soft
breaks. -/
theorem wrapChunksGo_safe {I : List Nat} {maxLength lineMargin : Nat}
    (hgood : goodQP I = true) (hmax : 4 ≤ maxLength) :
    ∀ (fuel pos : Nat) (cs : List (List Nat × Bool)),
    wrapChunksGo maxLength lineMargin I.length I fuel pos = some cs →
    safeBreaks cs = true := by
  intro fuel
  induction fuel with
  | zero =>
    intro pos cs h
    unfold wrapChunksGo at h
    split at h
    · cases h
      rfl
    · cases h
  | succ n ih =>
    intro pos cs h
    unfold wrapChunksGo at h
    split at h
    · cases h
      rfl
    · next hlt =>
      dsimp only at h
      rw [Option.map_eq_some'] at h
      obtain ⟨cs2, htail, hcs⟩ := h
      subst hcs
      have htailsafe := ih _ cs2 htail
      have hcont := wrapChunksGo_content hgood hmax n _ cs2 htail
      rw [safeBreaks_cons, Bool.and_eq_true]
      refine ⟨?_, htailsafe⟩
      cases hbrk : (wrapStep maxLength lineMargin I.length pos I).2
      · rfl
      · rcases wrapStep_safe hmax hbrk with hs | hs | hs
        · rw [hcont] at *
          simp [hs]
        · simp [hs]
        · simp [hs]

/-- `wrapChunks` at a nonzero line length. -/
theorem wrapChunks_pos {input : List Nat} {L : Nat} (hL : L ≠ 0) :
    wrapChunks input L =
      if input.length ≤ L then some [(input, false)]
      else wrapChunksGo L (L / 3) input.length input (input.length + 1) 0 := by
  unfold wrapChunks
  have h0 : (L == 0) = false := by simpa using hL
  rw [h0]
  rfl

/-- The wrap loop on encoder output, with every chunk it emits and the
soft-break flags, never splits a multi-byte escape run except in the
documented give-up cases. -/
theorem wrap_chunks_safe (B : List Nat) (L : Nat)
    (hB : ∀ b ∈ B, b < 256) (hL : 4 ≤ L) :
    ∃ cs, wrapChunks (encode B) L = some cs ∧
      wrap (encode B) L = some (renderChunks cs) ∧
      safeBreaks cs = true := by
  have hgood := goodQP_encode B hB
  by_cases hshort : (encode B).length ≤ L
  · refine ⟨[(encode B, false)], ?_, ?_, rfl⟩
    · rw [wrapChunks_pos (by omega), if_pos hshort]
    · unfold wrap
      rw [wrapChunks_pos (by omega), if_pos hshort]
      rfl
  · obtain ⟨cs, hcs, -⟩ :=
      wrapChunksGo_spec hgood hL ((encode B).length + 1) 0 (by omega)
    refine ⟨cs, ?_, ?_, wrapChunksGo_safe hgood hL _ _ _ hcs⟩
    · rw [wrapChunks_pos (by omega), if_neg hshort]
      exact hcs
    · unfold wrap
      rw [wrapChunks_pos (by omega), if_neg hshort, hcs]
      rfl

/-! ### The per-byte emission rule of the specification (claim C4) -/

theorem beq_succ_succ (a b : Nat) : (a + 1 == b + 1) = (a == b) := by
  rcases Nat.decEq a b with h | h <;> simp [h]

theorem specLiteral_succ (b : Nat) (r : List Nat) (i : Nat) :
    specLiteral (b :: r) (i + 1) = specLiteral r i := by
  unfold specLiteral
  rw [List.getD_cons_succ, List.getD_cons_succ, List.length_cons,
    beq_succ_succ]

theorem encodeSpec_cons (b : Nat) (r : List Nat) :
    encodeSpec (b :: r) =
      (if specLiteral (b :: r) 0 then [b] else specHex b) ++ encodeSpec r := by
  unfold encodeSpec
  rw [List.length_cons, List.range_succ_eq_map, List.map_cons,
    List.flatten_cons]
  congr 1
  rw [List.map_map]
  congr 1
  refine List.map_congr_left ?_
  intro i _
  show (if specLiteral (b :: r) (i + 1) then [(b :: r).getD (i + 1) 0]
      else specHex ((b :: r).getD (i + 1) 0)) =
    (if specLiteral r i then [r.getD i 0] else specHex (r.getD i 0))
  rw [specLiteral_succ, List.getD_cons_succ]

theorem escByte_eq_specHex (b : Nat) : escByte b = specHex b := by
  unfold escByte specHex
  split
  · next h =>
    rw [Nat.div_eq_of_lt h, Nat.mod_eq_of_lt h]
    rfl
  · rfl

theorem specLiteral_zero (b : Nat) (r : List Nat) :
    (qpAllowed b && !((b == 32 || b == 9) &&
      (match r with | [] => true | c :: _ => c == 10 || c == 13))) =
    specLiteral (b :: r) 0 := by
  rcases r with _ | ⟨c, r2⟩
  · rfl
  · have hsw : (c == 10 || c == 13) = (c == 13 || c == 10) := by
      cases hc10 : (c == 10) <;> cases hc13 : (c == 13) <;> simp [hc10, hc13]
    show (qpAllowed b && !((b == 32 || b == 9) && (c == 10 || c == 13))) = _
    rw [hsw]
    rfl

/-! ### The decode pipeline in the specification's words (claim C5) -/

theorem rsb_cons61_gen {d : Nat} {r : List Nat}
    (h13 : ∀ r2, d = 13 → r = 10 :: r2 → False) (h10 : d ≠ 10) :
    removeSoftBreaks (61 :: d :: r) = 61 :: removeSoftBreaks (d :: r) := by
  rw [removeSoftBreaks.eq_def]
  split
  · next heq => exact absurd heq (by simp)
  · next r2 heq =>
    exfalso
    injection heq with h1 h2
    injection h2 with h3 h4
    exact h13 r2 h3 h4
  · next r2 heq =>
    exfalso
    injection heq with h1 h2
    injection h2 with h3 h4
    exact h10 h3
  · next heq =>
    exfalso
    injection heq with h1 h2
    simp at h2
  · next c2 r2 hx1 hx2 heq =>
    injection heq with h1 h2
    injection h2 with h3 h4
    subst h3
    subst h4
    rfl
  · next c2 r2 hx1 hx2 hx3 hx4 heq =>
    exfalso
    injection heq with h1 h2
    exact hx4 d r h1.symm h2.symm

theorem rsba_cons_ne {c : Nat} {r : List Nat}
    (h13 : ∀ r2, c = 61 → r = 13 :: 10 :: r2 → False)
    (h10 : ∀ r2, c = 61 → r = 10 :: r2 → False)
    (hnil : c = 61 → r = [] → False) :
    removeSoftBreaksAmended (c :: r) = c :: removeSoftBreaksAmended r := by
  rw [removeSoftBreaksAmended.eq_def]
  split
  · next heq => exact absurd heq (by simp)
  · next r2 heq =>
    exfalso
    injection heq with h1 h2
    exact h13 r2 h1 h2
  · next r2 heq =>
    exfalso
    injection heq with h1 h2
    exact h10 r2 h1 h2
  · next heq =>
    exfalso
    injection heq with h1 h2
    exact hnil h1 h2
  · next c2 r2 hx1 hx2 hx3 heq =>
    injection heq with h1 h2
    subst h1
    subst h2
    rfl

theorem rsb_eq_amended : ∀ s : List Nat,
    removeSoftBreaks s = removeSoftBreaksAmended s := by
  intro s
  induction s using removeSoftBreaksAmended.induct with
  | case1 => rfl
  | case2 r ih =>
    rw [show removeSoftBreaks (61 :: 13 :: 10 :: r) = removeSoftBreaks r
        from rfl,
      show removeSoftBreaksAmended (61 :: 13 :: 10 :: r) =
        removeSoftBreaksAmended r from rfl, ih]
  | case3 r ih =>
    rw [show removeSoftBreaks (61 :: 10 :: r) = removeSoftBreaks r from rfl,
      show removeSoftBreaksAmended (61 :: 10 :: r) =
        removeSoftBreaksAmended r from rfl, ih]
  | case4 => rfl
  | case5 c r hx1 hx2 hx3 ih =>
    rw [rsba_cons_ne hx1 hx2 hx3, ← ih]
    by_cases hc : c = 61
    · subst hc
      rcases hrr : r with _ | ⟨d, r2⟩
      · exact (hx3 rfl hrr).elim
      · subst hrr
        refine rsb_cons61_gen ?_ ?_
        · intro r3 hd hr
          exact hx1 r3 rfl (by rw [hd, hr])
        · intro hd
          exact hx2 r2 rfl (by rw [hd])
    · exact rsb_cons_ne hc

theorem decode_eq_decodeAmended (input : List Nat) :
    decode input = decodeAmended input := by
  rw [decode_eq_scan]
  unfold decodeAmended
  rw [rsb_eq_amended]

theorem encode_eq_encodeSpec : ∀ B : List Nat, encode B = encodeSpec B := by
  intro B
  induction B with
  | nil => rfl
  | cons b r ih =>
    rw [encode_cons, encodeSpec_cons, ih, escByte_eq_specHex b,
      specLiteral_zero b r]

end Libqp

namespace Mailhog

/-! ### Content selection (claims C7 and C10) -/

theorem firstPart_eq_find (p : List Nat → Bool) :
    ∀ l : List Part, firstPart p l =
      l.find? (fun part => p (hdrStr part.contentType)) := by
  intro l
  induction l with
  | nil => rfl
  | cons part rest ih =>
    show (if p (hdrStr part.contentType) = true then some part
        else firstPart p rest) = _
    by_cases hp : p (hdrStr part.contentType) = true
    · rw [if_pos hp]
      exact (List.find?_cons_of_pos
        (p := fun pt : Part => p (hdrStr pt.contentType)) rest hp).symm
    · rw [if_neg hp, ih]
      exact (List.find?_cons_of_neg
        (p := fun pt : Part => p (hdrStr pt.contentType)) rest hp).symm

theorem getContentPart_eq_selectPartSpec (b64 : List Nat → List Nat)
    (iconv : List Nat → List Nat → List Nat) (mail : Mail)
    (p : List Nat → Bool) :
    getContentPart b64 iconv mail p = selectPartSpec b64 iconv mail p := by
  unfold getContentPart selectPartSpec
  rw [firstPart_eq_find]
  rcases mail with ⟨content, mime⟩
  rcases mime with _ | ps <;> rfl

theorem decodeV3_ext {bufferFrom : List Nat → List Nat → Option (List Nat)}
    {iconv : List Nat → List Nat → List Nat}
    {str encoding : List Nat} {charset : Option (List Nat)}
    (hne : encoding ≠ []) (hext : extTokenTest (lowerStr encoding) = true) :
    decodeV3 bufferFrom iconv str encoding charset = some str := by
  unfold decodeV3
  have hempty : encoding.isEmpty = false := by
    rcases encoding with _ | ⟨c, r⟩
    · exact absurd rfl hne
    · rfl
  rw [hempty]
  rw [if_pos]
  show (!false && extTokenTest (lowerStr encoding)) = true
  rw [hext]
  rfl

theorem decodeV1utf8_default {b64 : List Nat → List Nat}
    {str encoding : List Nat}
    (h1 : lowerStr encoding ≠ units "base64")
    (h2 : lowerStr encoding ≠ units "quoted-printable") :
    decodeV1utf8 b64 str encoding = str := by
  unfold decodeV1utf8
  rw [if_neg (by simpa using h1), if_neg (by simpa using h2)]

/-- A double-quoted charset parameter defeats the charset regex: the
quote is not a `[\w_-]` character, so no match starts at `charset=`, and
by assumption no other occurrence of `charset=` exists. -/
theorem charsetOf_quoted (mt cs : List Nat)
    (hocc : ∀ i, (units "charset=").isPrefixOf
        ((mt ++ (units "charset=" ++ 34 :: (cs ++ [34]))).drop i) = true →
      i = mt.length) :
    charsetOf (mt ++ (units "charset=" ++ 34 :: (cs ++ [34]))) = none := by
  rw [charsetOf, List.findSome?_eq_none_iff]
  intro i _
  unfold charsetMatchAt
  by_cases hpre : (units "charset=").isPrefixOf
      ((mt ++ (units "charset=" ++ 34 :: (cs ++ [34]))).drop i) = true
  case neg =>
    rw [if_neg]
    intro hc
    rw [Bool.and_eq_true] at hc
    exact hpre hc.2
  case pos =>
    have hi := hocc i hpre
    subst hi
    have hdrop : (mt ++ (units "charset=" ++ 34 :: (cs ++ [34]))).drop
        (mt.length + 8) = 34 :: (cs ++ [34]) := by
      rw [Libqp.drop_add, List.drop_left,
        show (8 : Nat) = (units "charset=").length from rfl, List.drop_left]
    have hrun : ((mt ++ (units "charset=" ++ 34 :: (cs ++ [34]))).drop
        (mt.length + 8)).takeWhile isCsChar = [] := by
      rw [hdrop, List.takeWhile_cons, if_neg (by decide)]
    split
    · dsimp only
      rw [hrun, if_neg (by simp)]
    · rfl

/-! ### The attachment regex (claim C8) -/

theorem takeWhile_all_append {p : Nat → Bool} :
    ∀ xs ys : List Nat, (∀ c ∈ xs, p c = true) →
    (xs ++ ys).takeWhile p = xs ++ ys.takeWhile p := by
  intro xs
  induction xs with
  | nil => intro ys _; rfl
  | cons x xs ih =>
    intro ys h
    rw [List.cons_append, List.takeWhile_cons, if_pos (h x (by simp)),
      ih ys (fun c hc => h c (by simp [hc])), List.cons_append]

theorem dropWhile_all_append {p : Nat → Bool} :
    ∀ xs ys : List Nat, (∀ c ∈ xs, p c = true) →
    (xs ++ ys).dropWhile p = ys.dropWhile p := by
  intro xs
  induction xs with
  | nil => intro ys _; rfl
  | cons x xs ih =>
    intro ys h
    rw [List.cons_append, List.dropWhile_cons, if_pos (h x (by simp)),
      ih ys (fun c hc => h c (by simp [hc]))]

theorem cdMatchAnchored_some {s name : List Nat}
    (h : cdMatchAnchored s = some name) :
    ∃ ws lq rq, (∀ c ∈ ws, isJsWs c = true) ∧ name ≠ [] ∧
      (∀ c ∈ name, c ≠ 34) ∧ (lq = [] ∨ lq = [34]) ∧
      (rq = [] ∨ rq = [34]) ∧
      s = units "attachment;" ++ (ws ++ (units "filename=" ++
        (lq ++ (name ++ rq)))) := by
  unfold cdMatchAnchored at h
  by_cases h1 : (units "attachment;").isPrefixOf s = true
  case neg => rw [if_neg h1] at h; cases h
  case pos =>
  rw [if_pos h1] at h
  by_cases h2 : (units "filename=").isPrefixOf
      ((s.drop 11).dropWhile isJsWs) = true
  case neg => rw [if_neg h2] at h; cases h
  case pos =>
  rw [if_pos h2] at h
  rw [List.isPrefixOf_iff_prefix] at h1 h2
  obtain ⟨s1, hs1⟩ := h1
  have hd11 : s.drop 11 = s1 := by
    rw [← hs1, show (11 : Nat) = (units "attachment;").length from rfl,
      List.drop_left]
  rw [hd11] at h h2
  obtain ⟨t2, ht2⟩ := h2
  have hd9 : (s1.dropWhile isJsWs).drop 9 = t2 := by
    rw [← ht2, show (9 : Nat) = (units "filename=").length from rfl,
      List.drop_left]
  rw [hd9] at h
  dsimp only at h
  have hws : ∀ c ∈ s1.takeWhile isJsWs, isJsWs c = true :=
    fun c hc => List.mem_takeWhile_imp hc
  have hnm : ∀ t3 : List Nat,
      ∀ c ∈ t3.takeWhile (fun c => c != 34), c ≠ 34 := by
    intro t3 c hc
    simpa using List.mem_takeWhile_imp hc
  by_cases h3 : (t2.head? == some 34) = true
  case pos =>
    have hh : t2.head? = some 34 := by simpa using h3
    obtain ⟨tl, htl⟩ := List.head?_eq_some_iff.mp hh
    rw [if_pos h3] at h
    simp only [htl, List.drop_one, List.tail_cons] at h
    split at h
    case isFalse => cases h
    case isTrue hcond =>
    obtain rfl := Option.some.inj h
    rw [Bool.and_eq_true] at hcond
    obtain ⟨hlen, hrest⟩ := hcond
    refine ⟨s1.takeWhile isJsWs, [34],
      List.dropWhile (fun c => c != 34) tl, hws, ?_, ?_,
      Or.inr rfl, ?_, ?_⟩
    · intro hnil
      rw [hnil] at hlen
      simp at hlen
    · exact hnm _
    · simpa using hrest
    · rw [← hs1]
      congr 1
      conv_lhs => rw [← List.takeWhile_append_dropWhile isJsWs s1]
      congr 1
      rw [← ht2, htl]
      congr 1
      show 34 :: tl = 34 :: _
      congr 1
      exact (List.takeWhile_append_dropWhile _ _).symm
  case neg =>
    rw [if_neg h3] at h
    split at h
    case isFalse => cases h
    case isTrue hcond =>
    obtain rfl := Option.some.inj h
    rw [Bool.and_eq_true] at hcond
    obtain ⟨hlen, hrest⟩ := hcond
    refine ⟨s1.takeWhile isJsWs, [],
      List.dropWhile (fun c => c != 34) t2, hws, ?_, ?_, Or.inl rfl, ?_, ?_⟩
    · intro hnil
      rw [hnil] at hlen
      simp at hlen
    · exact hnm _
    · simpa using hrest
    · rw [← hs1]
      congr 1
      conv_lhs => rw [← List.takeWhile_append_dropWhile isJsWs s1]
      congr 1
      rw [← ht2]
      congr 1
      show t2 = t2.takeWhile (fun c => c != 34) ++
        t2.dropWhile (fun c => c != 34)
      exact (List.takeWhile_append_dropWhile _ _).symm

theorem cdMatchAnchored_of_parts {ws lq rq name : List Nat}
    (hws : ∀ c ∈ ws, isJsWs c = true) (hname : name ≠ [])
    (hq : ∀ c ∈ name, c ≠ 34) (hlq : lq = [] ∨ lq = [34])
    (hrq : rq = [] ∨ rq = [34]) :
    cdMatchAnchored (units "attachment;" ++ (ws ++ (units "filename=" ++
      (lq ++ (name ++ rq))))) = some name := by
  unfold cdMatchAnchored
  rw [if_pos (List.isPrefixOf_iff_prefix.mpr ⟨_, rfl⟩)]
  dsimp only
  rw [show (11 : Nat) = (units "attachment;").length from rfl,
    List.drop_left, dropWhile_all_append ws _ hws,
    show units "filename=" ++ (lq ++ (name ++ rq)) =
      102 :: (units "ilename=" ++ (lq ++ (name ++ rq))) from rfl,
    List.dropWhile_cons]
  rw [if_neg (by decide : ¬isJsWs 102 = true)]
  rw [if_pos (show (units "filename=").isPrefixOf
    (102 :: (units "ilename=" ++ (lq ++ (name ++ rq)))) = true from
    List.isPrefixOf_iff_prefix.mpr ⟨lq ++ (name ++ rq), rfl⟩)]
  rw [show 102 :: (units "ilename=" ++ (lq ++ (name ++ rq))) =
    units "filename=" ++ (lq ++ (name ++ rq)) from rfl,
    show (9 : Nat) = (units "filename=").length from rfl, List.drop_left]
  have hnmtw : (name ++ rq).takeWhile (fun c => c != 34) = name := by
    rw [takeWhile_all_append name rq
      (fun c hc => by simpa using hq c hc)]
    rcases hrq with hre | hre <;> rw [hre] <;> simp
  have hnmdw : (name ++ rq).dropWhile (fun c => c != 34) = rq := by
    rw [dropWhile_all_append name rq
      (fun c hc => by simpa using hq c hc)]
    rcases hrq with hre | hre <;> rw [hre] <;> rfl
  have hlenne : (name.length != 0) = true := by
    rcases name with _ | ⟨c, r⟩
    · exact absurd rfl hname
    · simp
  rcases hlq with hl | hl <;> rw [hl]
  · obtain ⟨n0, nr, hname'⟩ : ∃ a l, name = a :: l := by
      rcases name with _ | ⟨a, l⟩
      · exact absurd rfl hname
      · exact ⟨a, l, rfl⟩
    have h0 : n0 ≠ 34 := hq n0 (by rw [hname']; simp)
    have hcondf : ¬((([] : List Nat) ++ (name ++ rq)).head? == some 34)
        = true := by
      rw [List.nil_append, hname', List.cons_append]
      simp [h0]
    rw [if_neg hcondf, List.nil_append, hnmtw, hnmdw, hlenne]
    rcases hrq with hre | hre <;> rw [hre] <;> rfl
  · have hpos : (([34] ++ (name ++ rq)).head? == some 34) = true := rfl
    have hdrop1 : List.drop 1 ([34] ++ (name ++ rq)) = name ++ rq := rfl
    rw [if_pos hpos, hdrop1, hnmtw, hnmdw, hlenne]
    rcases hrq with hre | hre <;> rw [hre] <;> rfl

end Mailhog

/-! ## The claims -/

/-- C1: for every byte sequence `B`, the quoted-printable codec
satisfies `decode (encode B) = B`. -/
theorem claim_C1_round_trip (B : List Nat) (hB : ∀ b ∈ B, b < 256) :
    Libqp.decode (Libqp.encode B) = B :=
  Libqp.decode_encode B hB

/-- C1's round trip at a concrete byte sequence. -/
theorem claim_C1_witness :
    (∀ b ∈ [0, 61, 32, 9, 200, 255], b < 256) ∧
    Libqp.decode (Libqp.encode [0, 61, 32, 9, 200, 255]) =
      [0, 61, 32, 9, 200, 255] :=
  ⟨by decide, claim_C1_round_trip [0, 61, 32, 9, 200, 255] (by decide)⟩

/-- C2: for every byte sequence and line length `L ≥ 4`, soft-wrapping
the encoding at `L` terminates with some wrapped text whose decoding is
the original bytes. -/
theorem claim_C2_wrap_round_trip (B : List Nat) (hB : ∀ b ∈ B, b < 256)
    (L : Nat) (hL : 4 ≤ L) :
    ∃ W, Libqp.wrap (Libqp.encode B) L = some W ∧ Libqp.decode W = B :=
  Libqp.wrap_encode_decode hB hL

/-- C2's wrapped round trip at a concrete byte sequence and length. -/
theorem claim_C2_witness :
    (∀ b ∈ [195, 188, 13, 10, 195, 164], b < 256) ∧ 4 ≤ 5 ∧
    ∃ W, Libqp.wrap (Libqp.encode [195, 188, 13, 10, 195, 164]) 5 = some W ∧
      Libqp.decode W = [195, 188, 13, 10, 195, 164] :=
  ⟨by decide, by decide,
    claim_C2_wrap_round_trip [195, 188, 13, 10, 195, 164] (by decide) 5
      (by decide)⟩

/-- C3 (amended): every soft break the wrap loop inserts into encoder
output is safe — the chunk before the break does not separate a high
(`≥ 0x80`) escape from a following UTF-8 continuation escape — except
when that chunk consists entirely of `=XX` escapes (the backoff's
1–4-escape give-up case) or is at most 3 characters long. -/
theorem claim_C3_multibyte_amended (B : List Nat) (L : Nat)
    (hB : ∀ b ∈ B, b < 256) (hL : 4 ≤ L) :
    ∃ cs, Libqp.wrapChunks (Libqp.encode B) L = some cs ∧
      Libqp.wrap (Libqp.encode B) L = some (Libqp.renderChunks cs) ∧
      Libqp.safeBreaks cs = true :=
  Libqp.wrap_chunks_safe B L hB hL

/-- C3's amended safety at a concrete byte sequence and length. -/
theorem claim_C3_witness :
    (∀ b ∈ [195, 188, 195, 164], b < 256) ∧ 4 ≤ 4 ∧
    ∃ cs, Libqp.wrapChunks (Libqp.encode [195, 188, 195, 164]) 4 = some cs ∧
      Libqp.wrap (Libqp.encode [195, 188, 195, 164]) 4 =
        some (Libqp.renderChunks cs) ∧ Libqp.safeBreaks cs = true :=
  ⟨by decide, by decide,
    claim_C3_multibyte_amended [195, 188, 195, 164] 4 (by decide) (by decide)⟩

/-- Counterexample to C3 as stated: on the repository's own test vector
(the encoding of "üäöüäö", wrapped at 10) the wrapped output separates
the lead escape `=C3` from its continuation `=A4` across a soft
break. -/
theorem claim_C3_counterexample :
    ∃ W, Libqp.wrap (Libqp.encode
        [195, 188, 195, 164, 195, 182, 195, 188, 195, 164, 195, 182]) 10 =
      some W ∧ Libqp.hasLeadSplit W = true :=
  ⟨[61, 67, 51, 61, 66, 67, 61, 67, 51, 61, 13, 10, 61, 65, 52, 61, 67, 51,
    61, 66, 54, 61, 13, 10, 61, 67, 51, 61, 66, 67, 61, 67, 51, 61, 13, 10,
    61, 65, 52, 61, 67, 51, 61, 66, 54], by decide, by decide⟩

/-- C4: `encode` implements exactly the specification's per-byte rule —
literal character for TAB, LF, CR and the printable ranges except a
space or tab that ends the input or precedes CR or LF, and `=XX` with
two uppercase hexadecimal digits for every other byte. -/
theorem claim_C4_encode_rule (B : List Nat) (hB : ∀ b ∈ B, b < 256) :
    Libqp.encode B = Libqp.encodeSpec B :=
  Libqp.encode_eq_encodeSpec B

/-- C4's emission rule at a concrete byte sequence. -/
theorem claim_C4_witness :
    (∀ b ∈ [32, 9, 61, 200, 10], b < 256) ∧
    Libqp.encode [32, 9, 61, 200, 10] =
      Libqp.encodeSpec [32, 9, 61, 200, 10] :=
  ⟨by decide, claim_C4_encode_rule [32, 9, 61, 200, 10] (by decide)⟩

/-- C5 (amended): `decode` never fails and, on every input, equals the
claimed pipeline — strip trailing whitespace per line, remove soft
breaks, scan — once a soft break is defined as an `=` immediately
followed by CRLF, by a bare LF, or standing at the end of the input. -/
theorem claim_C5_decode_amended (input : List Nat) :
    Libqp.decode input = Libqp.decodeAmended input :=
  Libqp.decode_eq_decodeAmended input

/-- Counterexample to C5 as stated: on the input `"=\n"` the decoder
removes the `=`+LF pair as a soft break and returns no bytes, while the
claimed pipeline (soft break only before CRLF or at the end) keeps both
characters. -/
theorem claim_C5_counterexample :
    Libqp.decode [61, 10] = [] ∧ Libqp.decodeClaimed [61, 10] = [61, 10] ∧
    Libqp.decode [61, 10] ≠ Libqp.decodeClaimed [61, 10] := by
  refine ⟨rfl, rfl, ?_⟩
  decide

/-- C6 (amended): the part_003 transfer decoder returns the body
unchanged, for every charset and before any buffer work, exactly when
the lowercased encoding matches the `^(7|8)bit|binary|x-.+$` exemption
pattern; and the src/index.js decoder (with charset absent or UTF-8)
returns the body unchanged for every encoding that is neither base64 nor
quoted-printable. -/
theorem claim_C6_passthrough_amended :
    (∀ (bufferFrom : List Nat → List Nat → Option (List Nat))
        (iconv : List Nat → List Nat → List Nat) (str encoding : List Nat)
        (charset : Option (List Nat)), encoding ≠ [] →
      Mailhog.extTokenTest (Mailhog.lowerStr encoding) = true →
      Mailhog.decodeV3 bufferFrom iconv str encoding charset = some str) ∧
    (∀ (b64 : List Nat → List Nat) (str encoding : List Nat),
      Mailhog.lowerStr encoding ≠ units "base64" →
      Mailhog.lowerStr encoding ≠ units "quoted-printable" →
      Mailhog.decodeV1utf8 b64 str encoding = str) :=
  ⟨fun _ _ _ _ _ hne hex => Mailhog.decodeV3_ext hne hex,
   fun _ _ _ h1 h2 => Mailhog.decodeV1utf8_default h1 h2⟩

/-- Counterexample to C6 as stated: part_003's decoder passes the
unrecognized encoding `hex` to `Buffer.from`, which transforms the body
(`"41"` becomes `"A"`), and an unknown name such as `foo` makes
`Buffer.from` throw. -/
theorem claim_C6_counterexample :
    Mailhog.decodeV3 Mailhog.nodeBufferFrom (fun b _ => b)
      (units "41") (units "hex") none = some (units "A") ∧
    units "A" ≠ units "41" ∧
    Mailhog.decodeV3 Mailhog.nodeBufferFrom (fun b _ => b)
      (units "abc") (units "foo") none = none := by
  refine ⟨by decide, by decide, by decide⟩

/-- C7: `getContentPart` selects the first part of the candidate list
(content part, then MIME parts in order) whose Content-Type satisfies
the predicate and decodes it with its own transfer encoding and parsed
charset, reporting absence when nothing matches; on the concrete
quoted-printable text/plain message of the claim it returns the pair
with `"ü\r\näö"`. -/
theorem claim_C7_select_part :
    (∀ (b64 : List Nat → List Nat)
        (iconv : List Nat → List Nat → List Nat) (mail : Mailhog.Mail)
        (p : List Nat → Bool),
      Mailhog.getContentPart b64 iconv mail p =
        Mailhog.selectPartSpec b64 iconv mail p) ∧
    (∀ (b64 : List Nat → List Nat)
        (iconv : List Nat → List Nat → List Nat),
      Mailhog.getContentPart b64 iconv
        ⟨⟨some [units "text/plain; charset=utf-8"],
          some [units "quoted-printable"], none,
          units "=C3=BC=0D=0A=C3=A4=C3=B6"⟩, none⟩ Mailhog.textPlainRE =
      some (units "text/plain; charset=utf-8", units "ü\r\näö")) :=
  ⟨Mailhog.getContentPart_eq_selectPartSpec, fun _ _ => rfl⟩

/-- C8 (amended): `getAttachments` yields one attachment per MIME part
whose whole Content-Disposition value matches the anchored pattern
`^attachment;\s*filename="?([^"]+)"?$` — matching exactly the values of
the form `attachment;` + whitespace + `filename=` + optionally quoted
quote-free name — with the captured name, in order, skipping the rest,
and the empty list without MIME parts. -/
theorem claim_C8_attachments_amended :
    (∀ m : Mailhog.Mail, m.mime = none → Mailhog.getAttachments m = []) ∧
    (∀ (m : Mailhog.Mail) (parts : List Mailhog.Part),
      m.mime = some parts →
      Mailhog.getAttachments m = parts.filterMap (fun part =>
        (Mailhog.cdMatchAnchored (Mailhog.hdrStr part.disposition)).map
          (fun name => (name, part)))) ∧
    (∀ s name : List Nat, Mailhog.cdMatchAnchored s = some name ↔
      ∃ ws lq rq, (∀ c ∈ ws, Mailhog.isJsWs c = true) ∧ name ≠ [] ∧
        (∀ c ∈ name, c ≠ 34) ∧ (lq = [] ∨ lq = [34]) ∧
        (rq = [] ∨ rq = [34]) ∧
        s = units "attachment;" ++ (ws ++ (units "filename=" ++
          (lq ++ (name ++ rq))))) := by
  refine ⟨?_, ?_, ?_⟩
  · intro m hm
    unfold Mailhog.getAttachments
    rw [hm]
  · intro m parts hm
    unfold Mailhog.getAttachments
    rw [hm]
  · intro s name
    constructor
    · exact Mailhog.cdMatchAnchored_some
    · rintro ⟨ws, lq, rq, hws, hname, hq, hlq, hrq, rfl⟩
      exact Mailhog.cdMatchAnchored_of_parts hws hname hq hlq hrq

/-- Counterexample to C8 as stated: the header value
`attachment; filename="a.txt"; size=2` contains a match of the claim's
unanchored pattern, but the code's anchored regex rejects it, so the
part is skipped. -/
theorem claim_C8_counterexample :
    Mailhog.cdMatchAnchored
      (units "attachment; filename=\"a.txt\"; size=2") = none ∧
    Mailhog.cdMatchClaimed
      (units "attachment; filename=\"a.txt\"; size=2") =
      some (units "a.txt") ∧
    Mailhog.getAttachments
      ⟨⟨none, none, none, []⟩,
        some [⟨none, none,
          some [units "attachment; filename=\"a.txt\"; size=2"], []⟩]⟩ =
      [] := by
  refine ⟨by decide, by decide, rfl⟩

/-- C9: under src/index.js, reading `cc` (likewise `bcc`, `replyTo`,
`date`, `deliveryDate`) stores its value in the `to` property, so a
later read of `to` returns the Cc header instead of the To header —
the per-field caches are not independent as the specification
requires.  (On a fresh view, `to` itself still reads correctly.) -/
theorem claim_C9_to_clobbered (toH ccH : List Nat) :
    (Mailhog.readTo toH (Mailhog.readCc ccH Mailhog.viewNew).2).1 = ccH ∧
    (Mailhog.readTo toH Mailhog.viewNew).1 = toH :=
  ⟨rfl, rfl⟩

/-- C10: when the Content-Type gives the charset parameter double-quoted
(and `charset=` occurs nowhere else), the charset regex finds no match,
so the quoted-printable body is decoded with the default UTF-8 charset,
whatever the iconv decoder would do. -/
theorem claim_C10_quoted_charset (mt cs : List Nat)
    (hocc : ∀ i < (mt ++ (units "charset=" ++ 34 :: (cs ++ [34]))).length,
      (units "charset=").isPrefixOf
        ((mt ++ (units "charset=" ++ 34 :: (cs ++ [34]))).drop i) = true →
      i = mt.length) :
    Mailhog.charsetOf (mt ++ (units "charset=" ++ 34 :: (cs ++ [34]))) =
      none ∧
    ∀ (b64 : List Nat → List Nat) (iconv : List Nat → List Nat → List Nat)
      (body : List Nat),
      Mailhog.decodeV2 b64 iconv body (units "quoted-printable")
        (Mailhog.charsetOf
          (mt ++ (units "charset=" ++ 34 :: (cs ++ [34])))) =
      Mailhog.utf8Decode (Libqp.decode body) := by
  have hocc2 : ∀ i, (units "charset=").isPrefixOf
      ((mt ++ (units "charset=" ++ 34 :: (cs ++ [34]))).drop i) = true →
      i = mt.length := by
    intro i h
    by_cases hi : i < (mt ++ (units "charset=" ++ 34 :: (cs ++ [34]))).length
    · exact hocc i hi h
    · rw [List.drop_eq_nil_of_le (by omega)] at h
      exact absurd h (by decide)
  have h0 := Mailhog.charsetOf_quoted mt cs hocc2
  refine ⟨h0, ?_⟩
  intro b64 iconv body
  rw [h0]
  rfl

/-- C10's default at the concrete header
`text/plain; charset="iso-8859-1"`. -/
theorem claim_C10_witness :
    Mailhog.charsetOf (units "text/plain; " ++
      (units "charset=" ++ 34 :: (units "iso-8859-1" ++ [34]))) = none :=
  (claim_C10_quoted_charset (units "text/plain; ") (units "iso-8859-1")
    (by decide)).1
